import Mathlib

/-
Verification of the value-generation and invalidation core of
robotframework-openapi-libcore, shallowly embedded from
src/OpenApiLibCore/value_utils.py and src/OpenApiLibCore/dto_base.py.

Modelling conventions:
- Python JSON-ish values are the inductive type JVal; Python dicts are
  insertion-ordered association lists (List (String × JVal)).
- Python numbers are modelled as integers (no claim under study depends on
  fractional values); Python bool is a subtype of int, so arithmetic and
  equality treat JVal.b like 0/1.
- The module-level IGNORE sentinel object is the constructor JVal.ignore.
- Randomness (random.choice / randint / shuffle, faker and rstr output,
  uuid4) is an explicit oracle state RandState threaded by the monad M;
  theorems quantify over all oracles.
- Python exceptions are the Except layer of M with the PyErr taxonomy; the
  ValueError raised by Dto.get_invalidated_data (dto_base.py line 216),
  which the design document names NoInvalidationTargetError, has its own
  constructor since its raise site is unique.
- Unbounded recursion/iteration carries explicit fuel; exhaustion is the
  error PyErr.fuelOut (Python: RecursionError or divergence).  Recursive
  helpers are written with the recursive call passed as a function
  argument so that every definition is structurally recursive and reduces
  in the kernel.
-/

namespace OpenApiLibCore

/-- A Python value as handled by the library: JSON scalars, lists, dicts,
plus the IGNORE sentinel object. -/
inductive JVal where
  | null
  | b (v : Bool)
  | i (n : Int)
  | s (v : String)
  | arr (l : List JVal)
  | obj (l : List (String × JVal))
  | ignore
deriving Repr

/-- A Python dict with string keys, in insertion order. -/
abbrev Jobj := List (String × JVal)

mutual

/-- Structural (Lean-level) equality test on JVal. -/
def jeq : JVal → JVal → Bool
  | .null, .null => true
  | .b x, .b y => x == y
  | .i m, .i n => m == n
  | .s a, .s b => a == b
  | .arr xs, .arr ys => jeqList xs ys
  | .obj xs, .obj ys => jeqPairs xs ys
  | .ignore, .ignore => true
  | _, _ => false
termination_by x y => sizeOf x + sizeOf y
decreasing_by all_goals (simp_wf; try omega)

def jeqList : List JVal → List JVal → Bool
  | [], [] => true
  | x :: xs, y :: ys => jeq x y && jeqList xs ys
  | _, _ => false
termination_by xs ys => sizeOf xs + sizeOf ys
decreasing_by all_goals (simp_wf; try omega)

def jeqPairs : List (String × JVal) → List (String × JVal) → Bool
  | [], [] => true
  | (k, v) :: xs, (k', w) :: ys => k == k' && jeq v w && jeqPairs xs ys
  | _, _ => false
termination_by xs ys => sizeOf xs + sizeOf ys
decreasing_by all_goals (simp_wf; try omega)

end

mutual

theorem jeq_iff : ∀ x y : JVal, jeq x y = true ↔ x = y
  | .null, y => by cases y <;> simp [jeq]
  | .b x, y => by cases y <;> simp [jeq]
  | .i m, y => by cases y <;> simp [jeq]
  | .s a, y => by cases y <;> simp [jeq]
  | .ignore, y => by cases y <;> simp [jeq]
  | .arr xs, y => by
      cases y <;> simp [jeq]
      exact jeqList_iff xs _
  | .obj xs, y => by
      cases y <;> simp [jeq]
      exact jeqPairs_iff xs _

theorem jeqList_iff : ∀ xs ys : List JVal, jeqList xs ys = true ↔ xs = ys
  | [], ys => by cases ys <;> simp [jeqList]
  | x :: xs, [] => by simp [jeqList]
  | x :: xs, y :: ys => by
      simp [jeqList, jeq_iff x y, jeqList_iff xs ys]

theorem jeqPairs_iff :
    ∀ xs ys : List (String × JVal), jeqPairs xs ys = true ↔ xs = ys
  | [], ys => by cases ys <;> simp [jeqPairs]
  | x :: xs, [] => by simp [jeqPairs]
  | (k, v) :: xs, (k', w) :: ys => by
      simp [jeqPairs, jeq_iff v w, jeqPairs_iff xs ys, Prod.ext_iff, and_assoc]

end

instance : DecidableEq JVal := fun x y =>
  decidable_of_iff (jeq x y = true) (jeq_iff x y)

/-- dict.get: first binding of the key (dicts keep keys unique). -/
def dget : Jobj → String → Option JVal
  | [], _ => none
  | (k, v) :: rest, key => if k = key then some v else dget rest key

/-- dict.get with a default. -/
def dgetD (d : Jobj) (key : String) (dflt : JVal) : JVal :=
  (dget d key).getD dflt

/-- key in dict. -/
def dmem (d : Jobj) (key : String) : Bool :=
  (dget d key).isSome

/-- dict[key] = value: replace in place if present, else append. -/
def dset : Jobj → String → JVal → Jobj
  | [], key, value => [(key, value)]
  | (k, v) :: rest, key, value =>
      if k = key then (k, value) :: rest else (k, v) :: dset rest key value

/-- dict.pop(key, default): the dict with the key removed. -/
def dpop : Jobj → String → Jobj
  | [], _ => []
  | (k, v) :: rest, key => if k = key then dpop rest key else (k, v) :: dpop rest key

/-- Python truthiness of a value. -/
def truthy : JVal → Bool
  | .null => false
  | .b v => v
  | .i n => n != 0
  | .s v => v != ""
  | .arr l => !l.isEmpty
  | .obj l => !l.isEmpty
  | .ignore => true

/-- Whether a value is Python None. -/
def isNull : JVal → Bool
  | .null => true
  | _ => false

/-- Python == of a value against a string literal. -/
def isStr (v : JVal) (lit : String) : Bool :=
  match v with
  | .s t => t == lit
  | _ => false

/-- A Python int where one is required: int, or bool as 0/1. -/
def toNum : JVal → Option Int
  | .i n => some n
  | .b v => some (if v then 1 else 0)
  | _ => none

mutual

/-- Python == on values: bool compares equal to 0/1, dicts compare
order-insensitively key by key, lists element-wise. -/
def pyEq : JVal → JVal → Bool
  | .null, .null => true
  | .b a, .i n => (if a then (1 : Int) else 0) == n
  | .i n, .b a => n == (if a then (1 : Int) else 0)
  | .b a, .b c => a == c
  | .i m, .i n => m == n
  | .s a, .s b => a == b
  | .arr xs, .arr ys => pyEqList xs ys
  | .obj xs, .obj ys => xs.length == ys.length && pyEqSub xs ys
  | .ignore, .ignore => true
  | _, _ => false
termination_by x y => sizeOf x + sizeOf y
decreasing_by all_goals (simp_wf; try omega)

def pyEqList : List JVal → List JVal → Bool
  | [], [] => true
  | x :: xs, y :: ys => pyEq x y && pyEqList xs ys
  | _, _ => false
termination_by xs ys => sizeOf xs + sizeOf ys
decreasing_by all_goals (simp_wf; try omega)

/-- Every key of the first dict occurs in the second with a Python-equal
value (keys of a dict are unique, so the first binding decides). -/
def pyEqSub : List (String × JVal) → List (String × JVal) → Bool
  | [], _ => true
  | (k, v) :: xs, ys => pyLookupEq k v ys && pyEqSub xs ys
termination_by xs ys => sizeOf xs + sizeOf ys
decreasing_by all_goals (simp_wf; try omega)

def pyLookupEq (key : String) (v : JVal) : List (String × JVal) → Bool
  | [] => false
  | (k, w) :: rest => if k == key then pyEq v w else pyLookupEq key v rest
termination_by l => sizeOf v + sizeOf l
decreasing_by all_goals (simp_wf; try omega)

end

/-- Python `x in l` membership via ==. -/
def pyMem (x : JVal) (l : List JVal) : Bool :=
  l.any (pyEq x)

/-- The Python exceptions the embedded code can raise.  noInvalidationTarget
is the ValueError raised at dto_base.py line 216 (the design document's
NoInvalidationTargetError); fuelOut is recursion/iteration budget
exhaustion (Python: RecursionError or divergence). -/
inductive PyErr where
  | keyError (key : String)
  | notImplementedError
  | valueError
  | typeError
  | attributeError
  | indexError
  | noInvalidationTarget
  | fuelOut
deriving Repr, DecidableEq

/-- The oracle for every random draw the library makes: a queue of integer
draws (randint / choice / shuffle indices) and a queue of string draws
(faker, rstr and uuid4 outputs).  An exhausted queue yields 0 or "". -/
structure RandState where
  ints : List Nat
  strs : List String
deriving Repr, DecidableEq

/-- The effect monad of the embedding: oracle state plus Python
exceptions. -/
def M (α : Type) : Type := RandState → Except PyErr (α × RandState)

def M.pure (a : α) : M α := fun g => .ok (a, g)

def M.bind (x : M α) (f : α → M β) : M β := fun g =>
  match x g with
  | .ok (a, g') => f a g'
  | .error e => .error e

instance : Monad M where
  pure := M.pure
  bind := M.bind

/-- raise -/
def M.err (e : PyErr) : M α := fun _ => .error e

def M.ofExcept : Except PyErr α → M α
  | .ok a => M.pure a
  | .error e => M.err e

/-- Consume the next integer draw. -/
def drawNat : M Nat := fun g => .ok (g.ints.headD 0, ⟨g.ints.tail, g.strs⟩)

/-- Consume the next string draw (a faker / rstr / uuid4 output). -/
def drawStr : M String := fun g => .ok (g.strs.headD "", ⟨g.ints, g.strs.tail⟩)

/-- A faker name() draw; faker names are never empty, so the oracle string
is made nonempty. -/
def drawName : M String := fun g =>
  .ok ((if g.strs.headD "" = "" then "x" else g.strs.headD ""),
    ⟨g.ints, g.strs.tail⟩)

/-- random.randint: uniform over [lo, hi], ValueError on an empty range. -/
def randint (lo hi : Int) : M Int :=
  if hi < lo then M.err .valueError
  else do
    let k ← drawNat
    pure (lo + (k % (hi - lo + 1).toNat))

/-- random.choice on a list: IndexError on an empty sequence. -/
def pyChoice {α : Type} : List α → M α
  | [] => M.err .indexError
  | x :: xs => do
    let k ← drawNat
    pure ((x :: xs).getD (k % (xs.length + 1)) x)

/-- The stop bound of a Python slice v[0:stop]. -/
def sliceStop (len : Nat) (stop : Int) : Nat :=
  if stop < 0 then ((len : Int) + stop).toNat else min stop.toNat len

/-- Python s[0:stop] on a string. -/
def strSliceTo (v : String) (stop : Int) : String :=
  String.mk (v.toList.take (sliceStop v.length stop))

/-- Python l[0:stop] on a list. -/
def listSliceTo (l : List JVal) (stop : Int) : List JVal :=
  l.take (sliceStop l.length stop)

/-- Python abs() on a value that must be numeric. -/
def pyAbs (v : JVal) : Except PyErr Int :=
  match toNum v with
  | some n => .ok |n|
  | none => .error .typeError

/-- Python + on two values: numeric addition (bool as 0/1), string or list
concatenation; TypeError otherwise. -/
def pyAdd (x y : JVal) : Except PyErr JVal :=
  match toNum x, toNum y with
  | some m, some n => .ok (.i (m + n))
  | _, _ =>
    match x, y with
    | .s a, .s b => .ok (.s (a ++ b))
    | .arr a, .arr b => .ok (.arr (a ++ b))
    | _, _ => .error .typeError

/-- dict[key] with KeyError. -/
def getKey (d : Jobj) (key : String) : M JVal :=
  match dget d key with
  | some v => M.pure v
  | none => M.err (.keyError key)

/-- A value used where Python needs a number (comparison, arithmetic,
slice bound): TypeError otherwise. -/
def reqNum (v : JVal) : M Int :=
  match toNum v with
  | some n => M.pure n
  | none => M.err .typeError

/-- value_utils.get_random_int. -/
def get_random_int (value_schema : Jobj) : M Int := do
  let property_format := dgetD value_schema "format" (.s "int32")
  let min_int : Int :=
    if isStr property_format "int64" then -9223372036854775808 else -2147483648
  let max_int : Int :=
    if isStr property_format "int64" then 9223372036854775807 else 2147483647
  let minimum ← reqNum (dgetD value_schema "minimum" (.i min_int))
  let maximum ← reqNum (dgetD value_schema "maximum" (.i max_int))
  let minimum :=
    if truthy (dgetD value_schema "exclusiveMinimum" (.b false)) then minimum + 1
    else minimum
  let maximum :=
    if truthy (dgetD value_schema "exclusiveMaximum" (.b false)) then maximum - 1
    else maximum
  randint minimum maximum

/-- value_utils.get_random_float.  "number" values are modelled as integers,
so uniform(a, b) is a draw from the integers of [a, b]; the
exclusive-bounds redraw loop needs an interior point to exist (fuelOut
where the integer model has none). -/
def get_random_float (value_schema : Jobj) : M Int := do
  let bounds ← (match dget value_schema "minimum", dget value_schema "maximum" with
    | none, none => M.pure ((-1 : Int), (1 : Int))
    | none, some mx => do
        let b ← reqNum mx
        pure (b - 1, b)
    | some mn, none => do
        let a ← reqNum mn
        pure (a, a + 1)
    | some mn, some mx => do
        let a ← reqNum mn
        let b ← reqNum mx
        if b < a then M.err .valueError else pure (a, b) : M (Int × Int))
  let minimum := bounds.1
  let maximum := bounds.2
  let exclusive := truthy (dgetD value_schema "exclusiveMinimum" (.b false))
    || truthy (dgetD value_schema "exclusiveMaximum" (.b false))
  if exclusive then
    if minimum = maximum then M.err .valueError
    else if maximum - minimum < 2 then M.err .fuelOut
    else do
      let k ← drawNat
      pure (minimum + 1 + (k % (maximum - minimum - 1).toNat))
  else do
    let k ← drawNat
    pure (minimum + (k % (maximum - minimum + 1).toNat))

/-- value_utils.fake_string: the named faker provider, or the uuid4
fallback for unknown format names; every provider yields a fresh random
string (datetimes are strftime-formatted to a string), i.e. one oracle
string draw. -/
def fake_string (_format : String) : M String :=
  drawStr

/-- base64.b64encode of the utf-8 bytes; the encoding is irrelevant to
every claim and kept as an injective wrapper. -/
def b64encode (data : String) : String := "base64:" ++ data

/-- The padding loop of get_random_string: while len(value) < minimum,
append a faker name.  Names are nonempty so minimum + 1 rounds always
suffice; the explicit round budget only makes the recursion structural. -/
def padToMin (minimum : Nat) : Nat → String → M String
  | 0, value => if value.length < minimum then M.err .fuelOut else pure value
  | fuel + 1, value =>
      if value.length < minimum then do
        let n ← drawName
        padToMin minimum fuel (value ++ n)
      else pure value

/-- value_utils.get_random_string (bytes results are modelled as their
base64 string). -/
def get_random_string (value_schema : Jobj) : M JVal := do
  let pattern := dgetD value_schema "pattern" .null
  if truthy pattern then do
    let v ← drawStr   -- rstr.xeger(pattern)
    pure (.s v)
  else do
    let minimum ← reqNum (dgetD value_schema "minLength" (.i 0))
    let maximum ← reqNum (dgetD value_schema "maxLength" (.i 36))
    let maximum := if minimum > maximum then minimum else maximum
    let format_ := dgetD value_schema "format" (.s "uuid")
    if isStr format_ "byte" then do
      let data ← drawStr   -- FAKE.fake.uuid4()
      pure (.s (b64encode data))
    else do
      let fmt ← (match format_ with
        | .s f => M.pure f
        | _ => M.err .attributeError : M String)   -- .replace on a non-string
      let value ← fake_string fmt
      let value ← padToMin minimum.toNat (minimum.toNat + 1) value
      pure (.s (if (value.length : Int) > maximum then strSliceTo value maximum
        else value))

/-- The element loop of get_random_array: range(maximum) independent draws
of the given generator, in order. -/
def buildArrayWith (gen : Jobj → M JVal) (items : Jobj) : Nat → M (List JVal)
  | 0 => pure []
  | n + 1 => do
      let v ← gen items
      let rest ← buildArrayWith gen items n
      pure (v :: rest)

/-- value_utils.get_random_array, with the element generator passed in
(get_valid_value one recursion level down). -/
def get_random_array_with (gen : Jobj → M JVal) (value_schema : Jobj) :
    M JVal := do
  let minimum ← reqNum (dgetD value_schema "minItems" (.i 0))
  let maximum ← reqNum (dgetD value_schema "maxItems" (.i 1))
  let maximum := if minimum > maximum then minimum else maximum
  let items_schema ← getKey value_schema "items"
  match items_schema with
  | .obj o => do
      let l ← buildArrayWith gen o maximum.toNat
      pure (.arr l)
  | _ => M.err .attributeError   -- get_valid_value reads a dict

/-- value_utils.get_valid_value. -/
def get_valid_value : Nat → Jobj → M JVal
  | 0, _ => M.err .fuelOut
  | fuel + 1, value_schema => do
    let enum := dgetD value_schema "enum" .null
    if truthy enum then
      match enum with
      | .arr l => pyChoice l
      | .s str => do   -- random.choice over the characters of a string enum
          let c ← pyChoice str.toList
          pure (.s (String.mk [c]))
      | _ => M.err .typeError
    else do
      let value_type ← getKey value_schema "type"
      if isStr value_type "boolean" then do
        let k ← drawNat   -- FAKE.fake.boolean()
        pure (.b (k % 2 = 1))
      else if isStr value_type "integer" then do
        let n ← get_random_int value_schema
        pure (.i n)
      else if isStr value_type "number" then do
        let n ← get_random_float value_schema
        pure (.i n)
      else if isStr value_type "string" then
        get_random_string value_schema
      else if isStr value_type "array" then
        get_random_array_with (get_valid_value fuel) value_schema
      else M.err .notImplementedError

/-- value_utils.get_random_array at a given recursion budget. -/
def get_random_array (fuel : Nat) (value_schema : Jobj) : M JVal :=
  get_random_array_with (get_valid_value fuel) value_schema

/-- value_utils.json_type_name_of_python_type applied to type(value) of a
runtime value; None and the IGNORE sentinel have no mapping (ValueError). -/
def json_type_name_of_python_type : JVal → Except PyErr String
  | .s _ => .ok "string"
  | .b _ => .ok "boolean"
  | .i _ => .ok "integer"
  | .arr _ => .ok "array"
  | .obj _ => .ok "object"
  | _ => .error .valueError

/-- The integer/number fold of get_invalid_value_from_constraint:
invalid_value = abs(invalid_value) + abs(value) over the remaining
values. -/
def absFold (acc : JVal) : List JVal → Except PyErr JVal
  | [] => .ok acc
  | v :: rest => do
      let a ← pyAbs acc
      let b ← pyAbs v
      absFold (.i (a + b)) rest

/-- The generic + fold of get_invalid_value_from_constraint:
invalid_value = invalid_value + value over the remaining values. -/
def addFold (acc : JVal) : List JVal → Except PyErr JVal
  | [] => .ok acc
  | v :: rest => do
      let acc ← pyAdd acc v
      addFold acc rest

/-- The per-key recursion of the object branch of
get_invalid_value_from_constraint, with the recursive invalidator passed
in. -/
def invalidObjEntriesWith (inv : List JVal → JVal → Except PyErr JVal) :
    List (String × JVal) → Except PyErr (List (String × JVal))
  | [] => .ok []
  | (k, v) :: rest => do
      let jt ← json_type_name_of_python_type v
      let iv ← inv [v] (.s jt)
      let tail ← invalidObjEntriesWith inv rest
      .ok ((k, iv) :: tail)

/-- The per-element recursion of the array branch. -/
def invalidArrElemsWith (inv : List JVal → JVal → Except PyErr JVal) :
    List JVal → Except PyErr (List JVal)
  | [] => .ok []
  | v :: rest => do
      let jt ← json_type_name_of_python_type v
      let iv ← inv [v] (.s jt)
      let tail ← invalidArrElemsWith inv rest
      .ok (iv :: tail)

/-- value_utils.get_invalid_value_from_constraint (deterministic). -/
def get_invalid_value_from_constraint :
    Nat → List JVal → JVal → Except PyErr JVal
  | 0, _, _ => .error .fuelOut
  | fuel + 1, values_from_constraint, value_type =>
    if pyMem .ignore values_from_constraint then .ok .ignore
    else if values_from_constraint.length = 1 && isStr value_type "boolean" then
      match values_from_constraint with
      | v :: _ => .ok (.b (!truthy v))
      | [] => .error .indexError
    else if !(isStr value_type "string" || isStr value_type "integer" ||
          isStr value_type "number" || isStr value_type "array" ||
          isStr value_type "object") || values_from_constraint.isEmpty then
      .ok .null
    -- deepcopy(values_from_constraint) is the identity in a pure model
    else if isStr value_type "object" then
      match values_from_constraint.getLast? with   -- .pop()
      | none => .error .indexError
      | some (.obj entries) => do
          let pairs ←
            invalidObjEntriesWith (get_invalid_value_from_constraint fuel) entries
          .ok (.obj pairs)
      | some _ => .error .attributeError   -- .items() on a non-dict
    else if isStr value_type "array" then
      match values_from_constraint.getLast? with   -- .pop()
      | none => .error .indexError
      | some (.arr elems) => do
          let inner ←
            invalidArrElemsWith (get_invalid_value_from_constraint fuel) elems
          .ok (.arr inner)
      | some _ => .error .typeError   -- iterating a non-list is not modelled
    else
      -- invalid_values = 2 * values_from_constraint; invalid_value = .pop()
      match (values_from_constraint ++ values_from_constraint).getLast? with
      | none => .error .indexError
      | some last =>
        let rest := (values_from_constraint ++ values_from_constraint).dropLast
        if isStr value_type "integer" || isStr value_type "number" then do
          let r ← absFold last rest
          if truthy r then .ok r else pyAdd r (.i 1)   -- += 1 on a falsy result
        else do  -- the remaining supported type here is "string"
          let r ← addFold last rest
          .ok (if truthy r then r else .null)   -- None for an empty string

/-- Python iteration over the value handed to list.extend: list elements,
the characters of a string, or the keys of a dict. -/
def iterElems : JVal → Except PyErr (List JVal)
  | .arr l => .ok l
  | .s str => .ok (str.toList.map fun c => .s (String.mk [c]))
  | .obj entries => .ok (entries.map fun kv => .s kv.1)
  | _ => .error .typeError

/-- The inner key loop of the object branch of get_invalid_value_from_enum:
assign value.get(key) key by key and return as soon as the dict leaves the
enum (Sum.inr = early return). -/
def objKeyLoop (values : List JVal) (v : JVal) :
    Jobj → List String → Except PyErr (Sum Jobj JVal)
  | entries, [] => .ok (.inl entries)
  | entries, key :: restKeys => do
      let newVal ← (match v with
        | .obj ve => .ok (dgetD ve key .null)   -- value.get(key)
        | _ => .error .attributeError : Except PyErr JVal)
      let entries := dset entries key newVal
      if pyMem (.obj entries) values then objKeyLoop values v entries restKeys
      else .ok (.inr (.obj entries))

/-- One iteration of the value loop of get_invalid_value_from_enum. -/
def enumStep (values : List JVal) (value_type : JVal) (acc v : JVal) :
    Except PyErr (Sum JVal JVal) := do
  let acc ← (if isStr value_type "integer" || isStr value_type "number" then do
      let a ← pyAbs v
      pyAdd acc (.i (a + a))   -- invalid_value += abs(value) + abs(value)
    else .ok acc : Except PyErr JVal)
  let acc ← (if isStr value_type "string" then do
      let vv ← pyAdd v v
      pyAdd acc vv   -- invalid_value += value + value
    else .ok acc : Except PyErr JVal)
  let acc ← (if isStr value_type "array" then
      match acc with
      | .arr l => do
          let e ← iterElems v
          .ok (.arr (l ++ e ++ e))   -- extend twice
      | _ => .error .attributeError
    else .ok acc : Except PyErr JVal)
  if isStr value_type "object" then
    match acc with
    | .obj entries => do
        let r ← objKeyLoop values v entries (entries.map Prod.fst)
        match r with
        | .inl entries => .ok (.inl (.obj entries))
        | .inr found => .ok (.inr found)
    | _ => .error .attributeError   -- .keys() on a non-dict
  else .ok (.inl acc)

/-- The value loop of get_invalid_value_from_enum. -/
def enumLoop (values : List JVal) (value_type : JVal) :
    JVal → List JVal → Except PyErr JVal
  | acc, [] => .ok acc
  | acc, v :: rest => do
      let step ← enumStep values value_type acc v
      match step with
      | .inl acc => enumLoop values value_type acc rest
      | .inr found => .ok found

/-- value_utils.get_invalid_value_from_enum (deterministic). -/
def get_invalid_value_from_enum (values : List JVal) (value_type : JVal) :
    Except PyErr JVal :=
  if isStr value_type "string" then enumLoop values value_type (.s "") values
  else if isStr value_type "integer" || isStr value_type "number" then
    enumLoop values value_type (.i 0) values
  else if isStr value_type "array" then enumLoop values value_type (.arr []) values
  else if isStr value_type "object" then
    match values with
    | [] => .error .indexError                     -- values[0]
    | (.obj entries) :: _ =>
        enumLoop values value_type (.obj entries) values   -- fresh copy of values[0]
    | _ :: _ => .error .typeError                  -- dict unpacking of a non-dict
  else .ok .null   -- logger.warning; unsupported type

/-- The while-append loop of the array maxItems branch of
get_value_out_of_bounds; the gap to one past the bound is the iteration
count of the while loop. -/
def padListLoop : Nat → List JVal → M (List JVal)
  | 0, l => pure l
  | gap + 1, l => do
      let c ← pyChoice l
      padListLoop gap (l ++ [c])

/-- The while-append loop of the string maxLength branch. -/
def padStrLoop : Nat → String → M String
  | 0, v => pure v
  | gap + 1, v => do
      let c ← pyChoice v.toList
      padStrLoop gap (v ++ String.mk [c])

/-- value_utils.get_value_out_of_bounds.  Returns the produced value
(JVal.null for the Python None result) together with the final state of
current_value: the array maxItems branch appends to the caller's list in
place, every other branch leaves it untouched. -/
def get_value_out_of_bounds (value_schema : Jobj) (current_value : JVal) :
    M (JVal × JVal) := do
  let value_type ← getKey value_schema "type"
  if isStr value_type "integer" || isStr value_type "number" then
    let minimum := dgetD value_schema "minimum" .null
    if truthy minimum then do
      let n ← reqNum minimum
      pure (.i (n - 1), current_value)
    else
      let maximum := dgetD value_schema "maximum" .null
      if truthy maximum then do
        let n ← reqNum maximum
        pure (.i (n + 1), current_value)
      else
        let exMin := dgetD value_schema "exclusiveMinimum" .null
        if truthy exMin then pure (exMin, current_value)   -- returned verbatim
        else
          let exMax := dgetD value_schema "exclusiveMaximum" .null
          if truthy exMax then pure (exMax, current_value)
          else pure (.null, current_value)
  else if isStr value_type "array" then
    -- source bug kept: minimum = value_schema.get("minItems", 0) > 0 binds a
    -- bool, so the slice is current_value[0 : True - 1] = current_value[0:0]
    let minItems ← reqNum (dgetD value_schema "minItems" (.i 0))
    if minItems > 0 then
      match current_value with
      | .arr _ => pure (.arr [], current_value)
      | .s _ => pure (.s "", current_value)
      | _ => M.err .typeError
    else
      let maxItems := dgetD value_schema "maxItems" .null
      if truthy maxItems then do
        let maxN ← reqNum maxItems
        if truthy current_value then
          match current_value with
          | .arr l => do
              let padded ← padListLoop (maxN + 1 - l.length).toNat l
              pure (.arr padded, .arr padded)   -- in-place append: aliased
          | _ => M.err .attributeError   -- .append on a non-list
        else do
          let padded ← padListLoop (maxN + 1 - 1).toNat [.s "x"]
          pure (.arr padded, current_value)
      else pure (.null, current_value)
  else if isStr value_type "string" then
    let minLength := dgetD value_schema "minLength" (.i 0)
    if truthy minLength then do
      let n ← reqNum minLength
      match current_value with
      | .s v => pure (.s (strSliceTo v (n - 1)), current_value)
      | .arr l => pure (.arr (listSliceTo l (n - 1)), current_value)
      | _ => M.err .typeError
    else
      let maxLength := dgetD value_schema "maxLength" .null
      if truthy maxLength then do
        let maxN ← reqNum maxLength
        let start ← (match (if truthy current_value then current_value else .s "x") with
          | .s v => M.pure v
          | _ => M.err .typeError : M String)   -- += choice(...) on a non-string
        let padded ← padStrLoop (maxN + 1 - start.length).toNat start
        pure (.s padded, current_value)   -- strings are immutable
      else pure (.null, current_value)
  else pure (.null, current_value)

/-- value_utils.get_invalid_value.  Returns the invalid value together with
the final state of current_value (the bound-violation strategy can mutate
the caller's list in place through aliasing). -/
def get_invalid_value (fuel : Nat) (value_schema : Jobj) (current_value : JVal)
    (values_from_constraint : List JVal) : M (JVal × JVal) := do
  let value_type ← getKey value_schema "type"
  let fromConstraint ←
    if !values_from_constraint.isEmpty then
      M.ofExcept
        (get_invalid_value_from_constraint fuel values_from_constraint value_type)
    else pure .null
  if !isNull fromConstraint then pure (fromConstraint, current_value)
  else do
    let enum := dgetD value_schema "enum" .null
    let fromEnum ←
      if truthy enum then
        match enum with
        | .arr vs => M.ofExcept (get_invalid_value_from_enum vs value_type)
        | _ => M.err .typeError   -- iterating a non-list enum is not modelled
      else pure .null
    if !isNull fromEnum then pure (fromEnum, current_value)
    else do
      let oob ← get_value_out_of_bounds value_schema current_value
      if !isNull oob.1 then pure oob
      else if isStr value_type "string" then
        pure (.arr [.obj [("invalid", .arr [.null, .b false])], .s "null", .null,
          .b true], oob.2)
      else do
        let u ← drawStr   -- FAKE.fake.uuid4()
        pure (.s u, oob.2)

/-- The shallow dict merge dict.update used by merge_schemas on an existing
dict-valued key. -/
def dupdate (base : Jobj) : Jobj → Jobj
  | [] => base
  | (k, v) :: rest => dupdate (dset base k v) rest

/-- The per-key loop of dto_base.merge_schemas over the pairs of second. -/
def mergePairs (merged : Jobj) : Jobj → Except PyErr Jobj
  | [] => .ok merged
  | (key, value) :: rest => do
      let merged ← (
        if dmem merged key then
          match value with
          | .obj o =>
            match dget merged key with
            | some (.obj mo) => .ok (dset merged key (.obj (dupdate mo o)))
            | _ => .error .attributeError   -- .update on a non-dict
          | .arr l =>
            match dget merged key with
            | some (.arr ml) => .ok (dset merged key (.arr (ml ++ l)))
            | _ => .error .attributeError   -- .extend on a non-list
          | _ => .ok merged   -- logger.warning; the existing value wins
        else .ok (dset merged key value) : Except PyErr Jobj)
      mergePairs merged rest

/-- dto_base.merge_schemas (deepcopy of first is the identity here). -/
def merge_schemas (first second : Jobj) : Except PyErr Jobj :=
  mergePairs first second

/-- The dict-valued-entry recursion at the top of resolve_schema, with the
recursive resolver passed in. -/
def resolveValuesWith (res : Jobj → Except PyErr Jobj) : Jobj → Except PyErr Jobj
  | [] => .ok []
  | (k, v) :: rest => do
      let v ← (match v with
        | .obj o => do
            let r ← res o
            .ok (JVal.obj r)
        | _ => .ok v : Except PyErr JVal)
      let rest ← resolveValuesWith res rest
      .ok ((k, v) :: rest)

/-- The allOf merge loop of resolve_schema. -/
def mergeAllOfWith (res : Jobj → Except PyErr Jobj) (resolved : Jobj) :
    List JVal → Except PyErr Jobj
  | [] => .ok resolved
  | part :: rest => do
      let rp ← (match part with
        | .obj o => res o
        | _ => .error .attributeError : Except PyErr Jobj)   -- .items() on a non-dict
      let resolved ← merge_schemas resolved rp
      mergeAllOfWith res resolved rest

/-- The anyOf/oneOf loop of resolve_schema: alternatives carrying a type go
into the types list, the rest merge in. -/
def resolvePartsWith (res : Jobj → Except PyErr Jobj) (resolved : Jobj) :
    List JVal → Except PyErr Jobj
  | [] => .ok resolved
  | part :: rest => do
      let rp ← (match part with
        | .obj o => res o
        | _ => .error .attributeError : Except PyErr Jobj)
      let resolved ← (
        if dmem rp "type" then
          match dget resolved "types" with
          | some (.arr ts) => .ok (dset resolved "types" (.arr (ts ++ [.obj rp])))
          | some _ => .error .attributeError   -- .append on a non-list
          | none => .ok (dset resolved "types" (.arr [.obj rp]))
        else merge_schemas resolved rp : Except PyErr Jobj)
      resolvePartsWith res resolved rest

/-- dto_base.resolve_schema. -/
def resolve_schema : Nat → Jobj → Except PyErr Jobj
  | 0, _ => .error .fuelOut
  | fuel + 1, schema => do
      -- deepcopy, then resolve every dict-typed value recursively
      let resolved ← resolveValuesWith (resolve_schema fuel) schema
      -- pop allOf (removed even when falsy) and merge the resolved parts
      let allOf := dgetD resolved "allOf" .null
      let resolved := dpop resolved "allOf"
      let resolved ← (
        if truthy allOf then
          match allOf with
          | .arr parts => mergeAllOfWith (resolve_schema fuel) resolved parts
          | _ => .error .typeError   -- iterating a non-list allOf is not modelled
        else .ok resolved : Except PyErr Jobj)
      -- pop anyOf and oneOf unconditionally; a truthy anyOf wins
      let anyOf := dgetD resolved "anyOf" .null
      let oneOf := dgetD resolved "oneOf" .null
      let resolved := dpop (dpop resolved "anyOf") "oneOf"
      let schema_parts := if truthy anyOf then anyOf else oneOf
      let parts ← (match schema_parts with
        | .arr parts => .ok parts
        | .null => .ok []   -- the [] defaults of the two pops
        | _ => .error .typeError : Except PyErr (List JVal))
      resolvePartsWith (resolve_schema fuel) resolved parts

/-- The five ResourceRelation variants of dto_base; PropertyValueConstraint
models the NOT_SET sentinel of invalid_value as Option.none. -/
inductive Relation where
  | pathProps (path : String) (property_name : String) (error_code : Int)
  | propVal (property_name : String) (values : List JVal)
      (invalid_value : Option JVal) (invalid_value_error_code : Int)
      (error_code : Int)
  | idDep (property_name : String) (get_path : String)
      (operation_id : Option String) (error_code : Int)
  | idRef (property_name : String) (post_path : String) (error_code : Int)
  | uniqueVal (property_name : String) (value : JVal) (error_code : Int)
deriving Repr, DecidableEq

def Relation.property_name : Relation → String
  | .pathProps _ p _ => p
  | .propVal p _ _ _ _ => p
  | .idDep p _ _ _ => p
  | .idRef p _ _ => p
  | .uniqueVal p _ _ => p

def Relation.error_code : Relation → Int
  | .pathProps _ _ c => c
  | .propVal _ _ _ _ c => c
  | .idDep _ _ _ c => c
  | .idRef _ _ c => c
  | .uniqueVal _ _ c => c

def Relation.isPathProps : Relation → Bool
  | .pathProps _ _ _ => true
  | _ => false

/-- dto_base.Dto.get_relations_for_error_code over a relations list: keep a
relation whose error_code matches, or a PropertyValueConstraint whose
invalid_value_error_code matches with invalid_value set. -/
def get_relations_for_error_code (relations : List Relation) (error_code : Int) :
    List Relation :=
  relations.filter fun r =>
    r.error_code == error_code ||
      (match r with
       | .propVal _ _ iv ivec _ => ivec == error_code && iv.isSome
       | _ => false)

/-- A Dto: its property values (as as_dict returns them, values aliased to
the attributes) and the body relations its get_relations override returns. -/
structure DtoModel where
  props : Jobj
  relations : List Relation
deriving Repr, DecidableEq

/-- dto_base.Dto.as_dict: a fresh mapping holding the (shared) attribute
values. -/
def DtoModel.as_dict (dto : DtoModel) : Jobj := dto.props

/-- random.shuffle as an oracle-chosen permutation: repeatedly extract the
element at the next drawn index. -/
def pyShuffleAux {α : Type} : Nat → List α → M (List α)
  | 0, _ => pure []
  | _ + 1, [] => pure []
  | n + 1, x :: xs => do
      let k ← drawNat
      let i := k % (xs.length + 1)
      let y := (x :: xs).getD i x
      let rest ← pyShuffleAux n ((x :: xs).eraseIdx i)
      pure (y :: rest)

def pyShuffle {α : Type} (l : List α) : M (List α) := pyShuffleAux l.length l

/-- list(set(names)): de-duplication.  Python set order is arbitrary; the
model keeps first occurrences, and the result feeds a shuffle anyway.  The
budget (the list length) only makes the recursion structural. -/
def dedupAux : Nat → List String → List String
  | 0, _ => []
  | _ + 1, [] => []
  | n + 1, x :: xs => x :: dedupAux n (xs.filter (· ≠ x))

def dedupKeepFirst (l : List String) : List String := dedupAux l.length l

/-- The candidate property names of get_invalidated_data: the names of the
(already PathPropertiesConstraint-filtered) relations plus, when the status
code is the default invalid-property code, every property declared in the
resolved schema, de-duplicated. -/
def candidateNames (schema : Jobj) (relations : List Relation)
    (status_code invalid_property_default_code : Int) :
    Except PyErr (List String) :=
  let property_names := relations.map Relation.property_name
  if status_code = invalid_property_default_code then
    match dget schema "properties" with
    | none => .error (.keyError "properties")
    | some (.obj props) => .ok (dedupKeepFirst (property_names ++ props.map Prod.fst))
    | some _ => .error .attributeError   -- .keys() on a non-dict
  else .ok property_names

/-- The types-list filter of get_invalidated_data: keep the alternatives
whose type is not "null". -/
def filterNullType : List JVal → Except PyErr (List JVal)
  | [] => .ok []
  | v :: rest => do
      let t ← (match v with
        | .obj o =>
          match dget o "type" with
          | some t => .ok t
          | none => .error (.keyError "type")
        | _ => .error .typeError : Except PyErr JVal)   -- subscripting a non-dict
      let tail ← filterNullType rest
      .ok (if isStr t "null" then tail else v :: tail)

/-- The values_from_constraint comprehension of get_invalidated_data:
r.values[0] of every PropertyValueConstraint on the property. -/
def constraintHeads (relations : List Relation) (name : String) :
    Except PyErr (List JVal) :=
  match relations with
  | [] => .ok []
  | .propVal p vs _ _ _ :: rest =>
      if p = name then
        match vs with
        | v :: _ => do
            let tail ← constraintHeads rest name
            .ok (v :: tail)
        | [] => .error .indexError   -- r.values[0]
      else constraintHeads rest name
  | _ :: rest => constraintHeads rest name

/-- The id_dependencies comprehension of get_invalidated_data: is the
relation an IdDependency on the propertyname under invalidation? -/
def isIdDependency (name : String) (r : Relation) : Bool :=
  match r with
  | .idDep p _ _ _ => p == name
  | _ => false

/-- The invalid_value_from_constraint comprehension of get_invalidated_data:
the invalid_value of a PropertyValueConstraint on the property whose
invalid_value_error_code is the requested status code. -/
def constraintInvalidValue (name : String) (status_code : Int) (r : Relation) :
    Option (Option JVal) :=
  match r with
  | .propVal p _ iv ivec _ =>
      if p = name ∧ ivec = status_code then some iv else none
  | _ => none

/-- The loop body of get_invalidated_data for the selected property (every
path of the body returns or raises, so only the first shuffled name runs). -/
def invalidateProperty (fuel : Nat) (dto : DtoModel) (properties schema : Jobj)
    (relations : List Relation) (status_code : Int) (name : String) :
    M (Jobj × Jobj) := do
  let id_dependencies := relations.filter (isIdDependency name)
  if !id_dependencies.isEmpty then do
    let _ ← getKey properties name   -- the debug message reads properties[name]
    let invalid_value ← drawStr      -- uuid4().hex
    pure (dset properties name (.s invalid_value), dto.props)
  else do
    let invalid_value_from_constraint :=
      relations.filterMap (constraintInvalidValue name status_code)
    match invalid_value_from_constraint with
    | some iv :: _ => pure (dset properties name iv, dto.props)
    | _ => do
        let props_schema ← getKey schema "properties"
        let value_schema ← (match props_schema with
          | .obj ps =>
            match dget ps name with
            | some v => M.pure v
            | none => M.err (.keyError name)
          | _ => M.err .typeError : M JVal)   -- subscripting a non-dict
        let value_schema ← (match value_schema with
          | .obj o => M.ofExcept (resolve_schema fuel o)
          | _ => M.err .attributeError : M Jobj)
        let types := dgetD value_schema "types" .null
        let value_schema ←
          if truthy types then
            match types with
            | .arr vss => do
                let vss ←
                  if vss.length > 1 then M.ofExcept (filterNullType vss)
                  else pure vss
                let chosen ← pyChoice vss
                match chosen with
                | .obj o => pure o
                | _ => M.err .typeError
            | _ => M.err .typeError   -- len() of a non-list
          else pure value_schema
        let current_value ← (match dget properties name with
          | some v => M.pure v   -- the dto's own attribute value, aliased
          | none => do
              let property_type ← getKey value_schema "type"
              if isStr property_type "object" then pure (.obj [])
              else if isStr property_type "array" then pure (.arr [])
              else get_valid_value fuel value_schema : M JVal)
        let values_from_constraint ← M.ofExcept (constraintHeads relations name)
        let r ← get_invalid_value fuel value_schema current_value values_from_constraint
        let dtoAfter := if dmem properties name then dset dto.props name r.2 else dto.props
        pure (dset properties name r.1, dtoAfter)

/-- dto_base.Dto.get_invalidated_data.  Returns the invalidated properties
mapping together with the final state of the dto's own property values
(shared with the mapping through the aliasing of as_dict). -/
def get_invalidated_data (fuel : Nat) (dto : DtoModel) (schema : Jobj)
    (status_code invalid_property_default_code : Int) : M (Jobj × Jobj) := do
  let properties := dto.as_dict
  let schema ← M.ofExcept (resolve_schema fuel schema)
  let relations := get_relations_for_error_code dto.relations status_code
  let relations := relations.filter fun r => !r.isPathProps
  let property_names ← M.ofExcept
    (candidateNames schema relations status_code invalid_property_default_code)
  if property_names = [] then M.err .noInvalidationTarget
  else do
    let shuffled ← pyShuffle property_names
    match shuffled with
    | [] => pure (properties, dto.props)   -- the pragma-no-cover fall-through
    | name :: _ =>
        invalidateProperty fuel dto properties schema relations status_code name

/-- The result is not the no-invalidation-target error (the only place the
code raises it is the empty-candidates check of get_invalidated_data). -/
def exNN {α : Type} (r : Except PyErr α) : Prop :=
  r ≠ .error PyErr.noInvalidationTarget

/-- A computation never fails with the no-invalidation-target error. -/
def mNN {α : Type} (m : M α) : Prop := ∀ g, exNN (m g)

/- ------------------------------------------------------------------ -/
/- Generic lemmas about the effect monad                               -/
/- ------------------------------------------------------------------ -/

@[simp]
theorem M.pure_apply {α : Type} (a : α) (g : RandState) :
    (Pure.pure a : M α) g = .ok (a, g) := rfl

@[simp]
theorem M.err_apply {α : Type} (e : PyErr) (g : RandState) :
    (M.err e : M α) g = .error e := rfl

theorem M.bind_ok {α β : Type} (x : M α) (f : α → M β) (g : RandState)
    (b : β) (g₂ : RandState) :
    (x >>= f) g = .ok (b, g₂) ↔
      ∃ a g₁, x g = .ok (a, g₁) ∧ f a g₁ = .ok (b, g₂) := by
  show M.bind x f g = _ ↔ _
  unfold M.bind
  cases hx : x g with
  | ok p =>
      cases p with
      | mk a g₁ =>
        simp only [hx]
        constructor
        · intro h
          exact ⟨a, g₁, rfl, h⟩
        · rintro ⟨a', g', heq, h⟩
          cases heq
          exact h
  | error e => simp

theorem M.bind_error {α β : Type} (x : M α) (f : α → M β) (g : RandState)
    (e : PyErr) :
    (x >>= f) g = .error e ↔
      x g = .error e ∨ ∃ a g₁, x g = .ok (a, g₁) ∧ f a g₁ = .error e := by
  show M.bind x f g = _ ↔ _
  unfold M.bind
  cases hx : x g with
  | ok p =>
      cases p with
      | mk a g₁ =>
        simp only [hx]
        constructor
        · intro h
          exact Or.inr ⟨a, g₁, rfl, h⟩
        · rintro (h | ⟨a', g', heq, h⟩)
          · exact absurd h (by simp)
          · cases heq
            exact h
  | error e' => simp

/- ------------------------------------------------------------------ -/
/- Claim C2                                                            -/
/- ------------------------------------------------------------------ -/

/-- C2: the claim says get_valid_value returns a const value verbatim,
overriding everything; the code never reads "const".  At the failing input
of the repository's own test_const (schema const 42, type string, minimum
43) the code runs the string branch and returns the drawn random string,
not 42. -/
theorem C2_const_ignored :
    get_valid_value 3
      [("const", .i 42), ("type", .s "string"), ("minimum", .i 43)]
      ⟨[0], ["u1"]⟩ = .ok (.s "u1", ⟨[0], []⟩) ∧ (JVal.s "u1" ≠ .i 42) := by
  constructor
  · simp +decide [get_valid_value, getKey, dget, dgetD, truthy, isStr, reqNum,
      toNum, get_random_string, fake_string, padToMin, drawStr, b64encode,
      strSliceTo, M.pure, M.bind, M.err, Bind.bind, Pure.pure, sliceStop]
  · simp

/- ------------------------------------------------------------------ -/
/- Claim C3                                                            -/
/- ------------------------------------------------------------------ -/

/-- C3 counterexample: the claim says get_value_out_of_bounds returns
minimum−1 whenever a (non-exclusive) minimum is declared, and −1 for the
scenario schema.  The walrus check `if minimum := get("minimum")` is a
truthiness test, so a declared minimum of 0 is skipped and the scenario
schema (minimum 0, maximum 10, current 5) yields maximum+1 = 11, not −1. -/
theorem C3_zero_minimum_counterexample :
    get_value_out_of_bounds
      [("type", .s "integer"), ("minimum", .i 0), ("maximum", .i 10)] (.i 5)
      ⟨[], []⟩ = .ok ((.i 11, .i 5), ⟨[], []⟩) ∧ (JVal.i 11 ≠ .i (-1)) := by
  constructor
  · simp [get_value_out_of_bounds, getKey, dget, dgetD, truthy, isStr, reqNum,
      toNum, M.pure, M.bind, M.err, Bind.bind, Pure.pure]
  · simp

/-- C3 amended: for an integer/number schema, get_value_out_of_bounds
returns minimum−1 when the declared minimum is a nonzero integer, and
maximum+1 when the minimum is absent or 0 and the declared maximum is a
nonzero integer (zero bounds are skipped by the truthiness checks). -/
theorem C3_bounds_amended (value_schema : Jobj) (current : JVal)
    (g : RandState) (t : JVal) (htype : dget value_schema "type" = some t)
    (ht : isStr t "integer" = true ∨ isStr t "number" = true) :
    (∀ m : Int, dget value_schema "minimum" = some (.i m) → m ≠ 0 →
        get_value_out_of_bounds value_schema current g
          = .ok ((.i (m - 1), current), g))
  ∧ (∀ mx : Int,
        (dget value_schema "minimum" = none ∨
          dget value_schema "minimum" = some (.i 0)) →
        dget value_schema "maximum" = some (.i mx) → mx ≠ 0 →
        get_value_out_of_bounds value_schema current g
          = .ok ((.i (mx + 1), current), g)) := by
  have htcond : (isStr t "integer" || isStr t "number") = true := by
    rcases ht with h | h <;> simp [h]
  constructor
  · intro m hmin hm
    simp [get_value_out_of_bounds, getKey, htype, htcond, dgetD, hmin, truthy,
      reqNum, toNum, hm, M.pure, M.bind, M.err, Bind.bind, Pure.pure]
  · intro mx hmin hmax hmx
    rcases hmin with hmin | hmin <;>
      simp [get_value_out_of_bounds, getKey, htype, htcond, dgetD, hmin, hmax,
        truthy, reqNum, toNum, hmx, M.pure, M.bind, M.err, Bind.bind, Pure.pure]

/-- C3 amended, witnessed at minimum 3 (returns 2) and at the scenario
schema (returns 11). -/
theorem C3_bounds_amended_witness :
    get_value_out_of_bounds [("type", .s "integer"), ("minimum", .i 3)] (.s "x")
      ⟨[], []⟩ = .ok ((.i 2, .s "x"), ⟨[], []⟩) ∧
    get_value_out_of_bounds
      [("type", .s "integer"), ("minimum", .i 0), ("maximum", .i 10)] (.i 5)
      ⟨[], []⟩ = .ok ((.i 11, .i 5), ⟨[], []⟩) := by
  constructor
  · exact ((C3_bounds_amended
      [("type", .s "integer"), ("minimum", .i 3)] (.s "x") ⟨[], []⟩
      (.s "integer") (by simp [dget]) (by simp [isStr])).1 3 (by simp [dget])
      (by simp))
  · exact ((C3_bounds_amended
      [("type", .s "integer"), ("minimum", .i 0), ("maximum", .i 10)] (.i 5)
      ⟨[], []⟩ (.s "integer") (by simp [dget]) (by simp [isStr])).2 10
      (Or.inr (by simp [dget])) (by simp [dget]) (by simp))

/- ------------------------------------------------------------------ -/
/- Claim C4                                                            -/
/- ------------------------------------------------------------------ -/

/-- C4: the claim (and the repository's own test
test_exclusive_min_max_oas_3_1) requires a numeric OAS 3.1 exclusive bound
to define the effective range; get_random_int only tests it for
truthiness and bumps the defaulted minimum by one, so the schema
exclusiveMinimum 2147483646 draws from [-2147483647, 2147483647] and the
zero draw yields -2147483647, far below the exclusive bound. -/
theorem C4_numeric_exclusive_bound_ignored :
    get_random_int [("exclusiveMinimum", .i 2147483646)] ⟨[0], []⟩
      = .ok (-2147483647, ⟨[], []⟩) ∧ (-2147483647 : Int) < 2147483646 := by
  constructor
  · simp [get_random_int, dgetD, dget, isStr, truthy, reqNum, toNum, randint,
      drawNat, M.pure, M.bind, M.err, Bind.bind, Pure.pure]
  · simp

/- ------------------------------------------------------------------ -/
/- Claim C5                                                            -/
/- ------------------------------------------------------------------ -/

/-- C5 counterexample: the claim says the array length is uniformly chosen
within [minItems, maxItems].  The loop is range(maximum), so for the schema
minItems 0 / maxItems 2 every oracle produces exactly two elements: the
lengths 0 and 1 of the claimed range are unreachable. -/
theorem C5_uniform_length_counterexample :
    ¬ ∃ (g g' : RandState) (l : List JVal),
      get_random_array 5
        [("type", .s "array"), ("minItems", .i 0), ("maxItems", .i 2),
         ("items", .obj [("type", .s "boolean")])] g = .ok (.arr l, g') ∧
      l.length ≠ 2 := by
  rintro ⟨g, g', l, h, hlen⟩
  have hres : get_random_array 5
      [("type", .s "array"), ("minItems", .i 0), ("maxItems", .i 2),
       ("items", .obj [("type", .s "boolean")])] g
      = .ok (.arr [.b (g.ints.headD 0 % 2 = 1), .b (g.ints.tail.headD 0 % 2 = 1)],
          ⟨g.ints.tail.tail, g.strs⟩) := rfl
  rw [hres] at h
  cases h
  exact hlen rfl

theorem buildArrayWith_length (gen : Jobj → M JVal) (items : Jobj) :
    ∀ (n : Nat) (g : RandState) (l : List JVal) (g' : RandState),
      buildArrayWith gen items n g = .ok (l, g') → l.length = n := by
  intro n
  induction n with
  | zero =>
      intro g l g' h
      rw [show buildArrayWith gen items 0 g = Except.ok (([] : List JVal), g) from rfl] at h
      simp at h
      simp [← h.1]
  | succ n ih =>
      intro g l g' h
      rw [buildArrayWith] at h
      rw [M.bind_ok] at h
      obtain ⟨v, g₁, _, h⟩ := h
      rw [M.bind_ok] at h
      obtain ⟨rest, g₂, hrest, h⟩ := h
      simp at h
      simp [← h.1, ih g₁ rest g₂ hrest]

/-- C5 amended: get_random_array returns a list whose length is exactly the
effective maximum max(minItems, maxItems) — minItems defaulting to 0 and
maxItems to 1 — with each element generated by get_valid_value on the
items schema; no length below the effective maximum is ever produced. -/
theorem C5_array_length_amended (fuel : Nat) (value_schema : Jobj)
    (mn mx : Int) (g g' : RandState) (l : List JVal)
    (hmin : toNum (dgetD value_schema "minItems" (.i 0)) = some mn)
    (hmax : toNum (dgetD value_schema "maxItems" (.i 1)) = some mx)
    (h : get_random_array fuel value_schema g = .ok (.arr l, g')) :
    l.length = (if mn > mx then mn else mx).toNat := by
  rw [get_random_array, get_random_array_with] at h
  rw [M.bind_ok] at h
  obtain ⟨a, g₁, ha, h⟩ := h
  rw [M.bind_ok] at h
  obtain ⟨b, g₂, hb, h⟩ := h
  rw [M.bind_ok] at h
  obtain ⟨items, g₃, hitems, h⟩ := h
  have hag : mn = a ∧ g = g₁ := by
    simpa [reqNum, hmin, M.pure] using ha
  have hbg : mx = b ∧ g₁ = g₂ := by
    simpa [reqNum, hmax, M.pure] using hb
  obtain ⟨rfl, rfl⟩ := hag
  obtain ⟨rfl, rfl⟩ := hbg
  cases items with
  | obj o =>
      rw [M.bind_ok] at h
      obtain ⟨elems, g₄, helems, h⟩ := h
      have := buildArrayWith_length (get_valid_value fuel) o _ _ _ _ helems
      simp at h
      rw [← h.1]
      simpa using this
  | null => simp [M.err] at h
  | b v => simp [M.err] at h
  | i n => simp [M.err] at h
  | s v => simp [M.err] at h
  | arr xs => simp [M.err] at h
  | ignore => simp [M.err] at h

/-- C5 amended, witnessed: minItems 0 / maxItems 2 over booleans yields
exactly two elements. -/
theorem C5_array_length_amended_witness :
    ([JVal.b true, JVal.b false]).length
      = (if (0 : Int) > 2 then (0 : Int) else 2).toNat :=
  C5_array_length_amended 5
    [("type", .s "array"), ("minItems", .i 0), ("maxItems", .i 2),
     ("items", .obj [("type", .s "boolean")])] 0 2 ⟨[1, 0], []⟩ ⟨[], []⟩
    [.b true, .b false] (by simp [dgetD, dget, toNum])
    (by simp [dgetD, dget, toNum]) rfl

/- ------------------------------------------------------------------ -/
/- Claim C6                                                            -/
/- ------------------------------------------------------------------ -/

/-- C6 counterexample: the claim says the string fallback returns one value
chosen at random among a nested object, "null", None, and True.  The code
returns the whole four-element list itself, which is none of those four
values. -/
theorem C6_string_fallback_counterexample :
    get_invalid_value 3 [("type", .s "string")] (.s "x") [] ⟨[], []⟩
      = .ok ((.arr [.obj [("invalid", .arr [.null, .b false])], .s "null", .null,
          .b true], .s "x"), ⟨[], []⟩) ∧
    (∀ v ∈ [JVal.obj [("invalid", .arr [.null, .b false])], .s "null", .null,
        .b true],
      JVal.arr [.obj [("invalid", .arr [.null, .b false])], .s "null", .null,
        .b true] ≠ v) := by
  constructor
  · rfl
  · intro v hv
    simp only [List.mem_cons, List.not_mem_nil, or_false] at hv
    rcases hv with rfl | rfl | rfl | rfl <;> simp

/-- C6 amended: when no constraint list is supplied, the enum key is absent
or falsy, and the bound-violation strategy yields nothing, get_invalid_value
returns the fixed four-element array [nested object, "null", None, True]
for a string-typed schema (not a random member of it), and a freshly drawn
random UUID string for any other type. -/
theorem C6_fallback_amended (fuel : Nat) (value_schema : Jobj)
    (current : JVal) (g g₁ : RandState) (t cur' : JVal)
    (htype : dget value_schema "type" = some t)
    (henum : truthy (dgetD value_schema "enum" .null) = false)
    (hoob : get_value_out_of_bounds value_schema current g
      = .ok ((.null, cur'), g₁)) :
    (t = .s "string" →
      get_invalid_value fuel value_schema current [] g =
        .ok ((.arr [.obj [("invalid", .arr [.null, .b false])], .s "null", .null,
          .b true], cur'), g₁))
  ∧ (isStr t "string" = false →
      get_invalid_value fuel value_schema current [] g =
        .ok ((.s (g₁.strs.headD ""), cur'), ⟨g₁.ints, g₁.strs.tail⟩)) := by
  constructor
  · rintro rfl
    simp [get_invalid_value, getKey, htype, henum, isNull, isStr,
      M.pure, M.bind, M.err, Bind.bind, Pure.pure, hoob, drawStr]
  · intro hts
    simp [get_invalid_value, getKey, htype, henum, isNull, hts,
      M.pure, M.bind, M.err, Bind.bind, Pure.pure, hoob, drawStr]

/-- C6 amended, witnessed at a bound-free string schema and a bound-free
boolean schema. -/
theorem C6_fallback_amended_witness :
    get_invalid_value 3 [("type", .s "string")] (.s "x") [] ⟨[], ["w"]⟩
      = .ok ((.arr [.obj [("invalid", .arr [.null, .b false])], .s "null", .null,
          .b true], .s "x"), ⟨[], ["w"]⟩) ∧
    get_invalid_value 3 [("type", .s "boolean")] (.b true) [] ⟨[], ["w"]⟩
      = .ok ((.s "w", .b true), ⟨[], []⟩) := by
  constructor
  · exact (C6_fallback_amended 3 [("type", .s "string")] (.s "x") ⟨[], ["w"]⟩
      ⟨[], ["w"]⟩ (.s "string") (.s "x") (by simp [dget])
      (by simp [dgetD, dget, truthy]) rfl).1 rfl
  · exact (C6_fallback_amended 3 [("type", .s "boolean")] (.b true) ⟨[], ["w"]⟩
      ⟨[], ["w"]⟩ (.s "boolean") (.b true) (by simp [dget])
      (by simp [dgetD, dget, truthy]) rfl).2 (by simp [isStr])

/- ------------------------------------------------------------------ -/
/- Claim C7                                                            -/
/- ------------------------------------------------------------------ -/

theorem pyEq_ignore_left (v : JVal) (h : v ≠ .ignore) : pyEq .ignore v = false := by
  cases v <;> simp_all [pyEq]

theorem pyMem_ignore_map_int (ints : List Int) :
    pyMem .ignore (ints.map JVal.i) = false := by
  simp [pyMem]
  intro v hv
  simp [pyEq]

theorem pyMem_ignore_map_str (strs : List String) :
    pyMem .ignore (strs.map JVal.s) = false := by
  simp [pyMem]
  intro v hv
  simp [pyEq]

theorem mapGetLast (f : Int → JVal) :
    ∀ l : List Int, (l.map f).getLast? = l.getLast?.map f := by
  intro l
  induction l with
  | nil => simp
  | cons x rest ih =>
      cases rest with
      | nil => simp
      | cons y t =>
          simp only [List.map_cons, List.getLast?_cons_cons] at *
          exact ih

theorem mapGetLastS (f : String → JVal) :
    ∀ l : List String, (l.map f).getLast? = l.getLast?.map f := by
  intro l
  induction l with
  | nil => simp
  | cons x rest ih =>
      cases rest with
      | nil => simp
      | cons y t =>
          simp only [List.map_cons, List.getLast?_cons_cons] at *
          exact ih

theorem mapDropLast (f : Int → JVal) :
    ∀ l : List Int, (l.map f).dropLast = l.dropLast.map f := by
  intro l
  induction l with
  | nil => simp
  | cons x rest ih =>
      cases rest with
      | nil => simp
      | cons y t =>
          simp only [List.map_cons] at ih
          simp only [List.map_cons, List.dropLast_cons₂]
          rw [ih]

theorem mapDropLastS (f : String → JVal) :
    ∀ l : List String, (l.map f).dropLast = l.dropLast.map f := by
  intro l
  induction l with
  | nil => simp
  | cons x rest ih =>
      cases rest with
      | nil => simp
      | cons y t =>
          simp only [List.map_cons] at ih
          simp only [List.map_cons, List.dropLast_cons₂]
          rw [ih]

theorem absFold_nonneg (l : List Int) :
    ∀ a : Int, 0 ≤ a →
      absFold (.i a) (l.map JVal.i) = .ok (.i (a + (l.map fun n => |n|).sum)) := by
  induction l with
  | nil => intro a _; simp [absFold]
  | cons x rest ih =>
      intro a ha
      have hstep : absFold (.i a) ((x :: rest).map JVal.i)
          = absFold (.i (a + |x|)) (rest.map JVal.i) := by
        simp [absFold, pyAbs, toNum, Bind.bind, Except.bind, abs_of_nonneg ha]
      rw [hstep, ih (a + |x|) (by positivity)]
      simp [add_assoc]

theorem absFold_ints (x : Int) (rest : List Int) (a : Int) :
    absFold (.i a) ((x :: rest).map JVal.i)
      = .ok (.i (|a| + ((x :: rest).map fun n => |n|).sum)) := by
  have hstep : absFold (.i a) ((x :: rest).map JVal.i)
      = absFold (.i (|a| + |x|)) (rest.map JVal.i) := by
    simp [absFold, pyAbs, toNum, Bind.bind, Except.bind]
  rw [hstep, absFold_nonneg rest (|a| + |x|) (by positivity)]
  simp [add_assoc]

theorem addFold_strs (l : List String) :
    ∀ a : String,
      ∃ r : String, addFold (.s a) (l.map JVal.s) = .ok (.s r) ∧
        r.length = a.length + (l.map String.length).sum := by
  induction l with
  | nil =>
      intro a
      exact ⟨a, by simp [addFold], by simp⟩
  | cons x rest ih =>
      intro a
      obtain ⟨r, hr, hlen⟩ := ih (a ++ x)
      refine ⟨r, ?_, ?_⟩
      · simp only [List.map_cons, addFold, pyAdd, toNum, Bind.bind, Except.bind]
        exact hr
      · rw [hlen]
        simp [String.length_append]
        omega

/-- Helper for C7: both numeric type names drive the same additive
construction; the result is 2 * (sum of absolute values), bumped to 1 when
that collapses to zero, and in both cases provably outside the list. -/
theorem C7_numeric_aux (fuel : Nat) (z : Int) (zs : List Int) (tname : String)
    (hbool : (tname == "boolean") = false)
    (hs : (tname == "string") = false)
    (hobj : (tname == "object") = false)
    (harr : (tname == "array") = false)
    (hnum : ((tname == "integer") || (tname == "number")) = true) :
    ∃ r : Int,
      get_invalid_value_from_constraint (fuel + 1) ((z :: zs).map JVal.i)
          (.s tname) = .ok (.i r)
        ∧ JVal.i r ∉ (z :: zs).map JVal.i := by
  have hm : (z :: zs) ++ (z :: zs) ≠ [] := by simp
  obtain ⟨w, ws, hw0⟩ :=
    List.exists_cons_of_ne_nil (l := ((z :: zs) ++ (z :: zs)).dropLast)
      (by
        intro hnil
        have := congrArg List.length hnil
        simp [List.length_dropLast] at this)
  set lst := ((z :: zs) ++ (z :: zs)).getLast hm with hlstdef
  set dl := ((z :: zs) ++ (z :: zs)).dropLast with hdldef
  have hlast :
      (((z :: zs).map JVal.i) ++ ((z :: zs).map JVal.i)).getLast?
        = some (.i lst) := by
    rw [hlstdef, ← List.map_append, mapGetLast, List.getLast?_eq_getLast _ hm]
    rfl
  have hdrop :
      (((z :: zs).map JVal.i) ++ ((z :: zs).map JVal.i)).dropLast
        = dl.map JVal.i := by
    rw [hdldef, ← List.map_append, mapDropLast]
  have habs : absFold (.i lst) (dl.map JVal.i)
      = .ok (.i (|lst| + ((w :: ws).map fun n => |n|).sum)) := by
    rw [hw0]
    exact absFold_ints w ws lst
  set S := ((z :: zs).map fun n => |n|).sum with hSdef
  have hSnn : 0 ≤ S := by
    rw [hSdef]
    apply List.sum_nonneg
    intro x hx
    obtain ⟨y, _, rfl⟩ := List.mem_map.mp hx
    positivity
  have hmem_le : ∀ x ∈ z :: zs, x ≤ S := by
    intro x hx
    calc x ≤ |x| := le_abs_self x
    _ ≤ S := by
      rw [hSdef]
      apply List.single_le_sum
      · intro y hy
        obtain ⟨u, _, rfl⟩ := List.mem_map.mp hy
        positivity
      · simp only [List.mem_map]
        exact ⟨x, hx, rfl⟩
  have hX : |lst| + ((w :: ws).map fun n => |n|).sum = 2 * S := by
    have hfull : |lst| + ((w :: ws).map fun n => |n|).sum
        = (((z :: zs) ++ (z :: zs)).map fun n => |n|).sum := by
      conv_rhs =>
        rw [← List.dropLast_append_getLast hm]
      rw [← hdldef, ← hlstdef, hw0]
      simp only [List.map_append, List.sum_append, List.map_cons,
        List.sum_cons, List.map_nil, List.sum_nil]
      omega
    rw [hfull, hSdef]
    simp [List.map_append, List.sum_append]
    omega
  have hnumOr : (tname == "integer") = true ∨ (tname == "number") = true := by
    cases h1 : (tname == "integer") with
    | true => exact Or.inl rfl
    | false =>
        cases h2 : (tname == "number") with
        | true => exact Or.inr rfl
        | false =>
            rw [h1, h2] at hnum
            simp at hnum
  have hbig : ((tname == "string") || ((tname == "integer") ||
      ((tname == "number") || ((tname == "array") || (tname == "object")))))
      = true := by
    rcases hnumOr with h | h <;> simp [h]
  have hpm : pyMem .ignore ((z :: zs).map JVal.i) = false :=
    pyMem_ignore_map_int _
  have hne2 : ((z :: zs).map JVal.i).isEmpty = false := by simp
  set values := (z :: zs).map JVal.i with hvdef
  clear_value lst dl values
  have hred : get_invalid_value_from_constraint (fuel + 1) values (.s tname)
      = (if truthy (.i (|lst| + ((w :: ws).map fun n => |n|).sum))
          then .ok (.i (|lst| + ((w :: ws).map fun n => |n|).sum))
          else pyAdd (.i (|lst| + ((w :: ws).map fun n => |n|).sum)) (.i 1)) := by
    simp [get_invalid_value_from_constraint, isStr, hbool, hs, hobj, harr,
      hnum, hbig, hpm, hne2, hlast, hdrop, habs, Bind.bind, Except.bind]
  rw [hX] at hred
  by_cases hS : S = 0
  · refine ⟨1, ?_, ?_⟩
    · rw [hred, hS]
      simp [truthy, pyAdd, toNum]
    · rw [hvdef]
      simp only [List.mem_map, not_exists]
      rintro x ⟨hx, hx1⟩
      have := hmem_le x hx
      have hx1e : x = 1 := by
        cases hx1
        rfl
      omega
  · refine ⟨2 * S, ?_, ?_⟩
    · rw [hred]
      have ht : truthy (.i (2 * S)) = true := by
        simp [truthy]
        omega
      rw [ht]
      simp
    · rw [hvdef]
      simp only [List.mem_map, not_exists]
      rintro x ⟨hx, hx2⟩
      have := hmem_le x hx
      have hx2e : x = 2 * S := by
        cases hx2
        rfl
      omega

/-- C7: for a nonempty constraint list without the IGNORE sentinel,
get_invalid_value_from_constraint negates a single boolean constraint
value ([True] yields False, see the witness); for integer/number
constraint values it always returns an integer provably outside the list;
for string constraint values it returns either a string provably outside
the list or None exactly when the concatenation collapses to the empty
string (all constraint values empty). -/
theorem C7_constraint_invalidation (fuel : Nat) :
    (∀ v : JVal, v ≠ .ignore →
      get_invalid_value_from_constraint (fuel + 1) [v] (.s "boolean")
        = .ok (.b (!truthy v)))
  ∧ (∀ (ints : List Int) (tname : String), ints ≠ [] →
      tname = "integer" ∨ tname = "number" →
      ∃ r : Int,
        get_invalid_value_from_constraint (fuel + 1) (ints.map JVal.i) (.s tname)
          = .ok (.i r) ∧ JVal.i r ∉ ints.map JVal.i)
  ∧ (∀ strs : List String, strs ≠ [] →
      (∃ r : String,
        get_invalid_value_from_constraint (fuel + 1) (strs.map JVal.s) (.s "string")
          = .ok (.s r) ∧ JVal.s r ∉ strs.map JVal.s)
      ∨ (get_invalid_value_from_constraint (fuel + 1) (strs.map JVal.s) (.s "string")
          = .ok .null ∧ ∀ t ∈ strs, t = "")) := by
  refine ⟨?_, ?_, ?_⟩
  · intro v hv
    simp [get_invalid_value_from_constraint, pyMem, pyEq_ignore_left v hv, isStr]
  · rintro ints tname hne (rfl | rfl) <;>
      ( obtain ⟨z, zs, rfl⟩ := List.exists_cons_of_ne_nil hne
        exact C7_numeric_aux fuel z zs _ (by simp) (by simp) (by simp) (by simp)
          (by simp) )
  · intro strs hne
    obtain ⟨z, zs, rfl⟩ := List.exists_cons_of_ne_nil hne
    have hm : (z :: zs) ++ (z :: zs) ≠ [] := by simp
    set lst := ((z :: zs) ++ (z :: zs)).getLast hm with hlstdef
    set dl := ((z :: zs) ++ (z :: zs)).dropLast with hdldef
    have hlast :
        (((z :: zs).map JVal.s) ++ ((z :: zs).map JVal.s)).getLast?
          = some (.s lst) := by
      rw [hlstdef, ← List.map_append, mapGetLastS, List.getLast?_eq_getLast _ hm]
      rfl
    have hdrop :
        (((z :: zs).map JVal.s) ++ ((z :: zs).map JVal.s)).dropLast
          = dl.map JVal.s := by
      rw [hdldef, ← List.map_append, mapDropLastS]
    obtain ⟨r, hr, hrlen⟩ := addFold_strs dl lst
    set T := ((z :: zs).map String.length).sum with hTdef
    have hrlen2 : r.length = 2 * T := by
      have hfull : lst.length + (dl.map String.length).sum
          = (((z :: zs) ++ (z :: zs)).map String.length).sum := by
        conv_rhs =>
          rw [← List.dropLast_append_getLast hm]
        rw [← hdldef, ← hlstdef]
        simp only [List.map_append, List.sum_append, List.map_cons,
          List.sum_cons, List.map_nil, List.sum_nil]
        omega
      rw [hrlen, hfull, hTdef]
      simp [List.map_append, List.sum_append]
      omega
    have hmem_le : ∀ t ∈ z :: zs, t.length ≤ T := by
      intro t ht
      rw [hTdef]
      apply List.single_le_sum (by intro y _; positivity)
      simp only [List.mem_map]
      exact ⟨t, ht, rfl⟩
    have hpm : pyMem .ignore ((z :: zs).map JVal.s) = false :=
      pyMem_ignore_map_str _
    have hne2 : ((z :: zs).map JVal.s).isEmpty = false := by simp
    set values := (z :: zs).map JVal.s with hvdef
    clear_value lst dl values
    have hred : get_invalid_value_from_constraint (fuel + 1) values (.s "string")
        = .ok (if truthy (.s r) then .s r else .null) := by
      simp [get_invalid_value_from_constraint, isStr, hpm, hne2, hlast, hdrop,
        hr, Bind.bind, Except.bind]
    by_cases hre : r = ""
    · right
      constructor
      · rw [hred, hre]
        simp [truthy]
      · intro t ht
        have h0 : r.length = 0 := by simp [hre]
        rw [hrlen2] at h0
        have hle := hmem_le t ht
        have ht0 : t.length = 0 := by omega
        cases t with
        | mk data =>
            cases data with
            | nil => rfl
            | cons c cs => simp [String.length] at ht0
    · left
      refine ⟨r, ?_, ?_⟩
      · rw [hred]
        have ht : truthy (.s r) = true := by simp [truthy, hre]
        rw [ht]
        simp
      · rw [hvdef]
        simp only [List.mem_map, not_exists]
        rintro t ⟨ht, htr⟩
        have hle := hmem_le t ht
        have htr2 : t = r := by
          cases htr
          rfl
        have hTpos : 0 < T := by
          rcases Nat.eq_zero_or_pos T with hT0 | hTp
          · exfalso
            rw [hT0] at hrlen2
            simp at hrlen2
            apply hre
            cases r with
            | mk data =>
                cases data with
                | nil => rfl
                | cons c cs => simp [String.length] at hrlen2
          · exact hTp
        rw [htr2, hrlen2] at hle
        omega

/-- C7, witnessed: [True] as a boolean constraint yields False, [0] as an
integer constraint yields a value outside the list, and [""] as a string
constraint either escapes the list or collapses to None. -/
theorem C7_constraint_invalidation_witness :
    get_invalid_value_from_constraint 1 [.b true] (.s "boolean")
      = .ok (.b false)
    ∧ (∃ r : Int,
        get_invalid_value_from_constraint 1 [.i 0] (.s "integer") = .ok (.i r)
          ∧ JVal.i r ∉ [JVal.i 0])
    ∧ ((∃ r : String,
        get_invalid_value_from_constraint 1 [.s ""] (.s "string") = .ok (.s r)
          ∧ JVal.s r ∉ [JVal.s ""])
      ∨ (get_invalid_value_from_constraint 1 [.s ""] (.s "string") = .ok .null
          ∧ ∀ t ∈ ([""] : List String), t = "")) := by
  refine ⟨?_, ?_, ?_⟩
  · simpa [truthy] using (C7_constraint_invalidation 0).1 (.b true) (by simp)
  · simpa using (C7_constraint_invalidation 0).2.1 [0] "integer" (by simp)
      (Or.inl rfl)
  · simpa using (C7_constraint_invalidation 0).2.2 [""] (by simp)

/- ------------------------------------------------------------------ -/
/- Claim C1                                                            -/
/- ------------------------------------------------------------------ -/

/-- C1 counterexample: the claim says get_invalid_value never returns a
member of an enum of size ≥ 2.  For an object-typed enum whose members
share their keys, the key loop of get_invalid_value_from_enum ends on the
last member without ever leaving the enum, and that member is returned:
for enum [{"a": 1}, {"a": 2}] the function returns {"a": 2}, a member. -/
theorem C1_object_enum_counterexample :
    get_invalid_value 2
      [("type", .s "object"),
       ("enum", .arr [.obj [("a", .i 1)], .obj [("a", .i 2)]])]
      (.obj [("a", .i 1)]) [] ⟨[], []⟩
      = .ok ((.obj [("a", .i 2)], .obj [("a", .i 1)]), ⟨[], []⟩)
    ∧ JVal.obj [("a", .i 2)]
        ∈ [JVal.obj [("a", .i 1)], JVal.obj [("a", .i 2)]] := by
  constructor
  · simp [get_invalid_value, get_invalid_value_from_enum, enumLoop, enumStep,
      objKeyLoop, pyMem, pyEq, pyEqSub, pyLookupEq, dgetD, dget, getKey,
      isStr, isNull, truthy, dset, M.bind, M.pure, M.err, M.ofExcept,
      Bind.bind, Pure.pure, Except.bind]
  · simp

theorem getD_mem {α : Type} (l : List α) (n : Nat) (d : α) (hd : d ∈ l) :
    l.getD n d ∈ l := by
  rcases h : l[n]? with _ | a
  · simpa [List.getD_eq_getElem?_getD, h] using hd
  · have heq : l.getD n d = a := by simp [List.getD_eq_getElem?_getD, h]
    rw [heq]
    exact List.mem_iff_getElem?.mpr ⟨n, h⟩

theorem pyChoice_mem {α : Type} (l : List α) (g g' : RandState) (a : α)
    (h : pyChoice l g = .ok (a, g')) : a ∈ l := by
  cases l with
  | nil => simp [pyChoice, M.err] at h
  | cons x xs =>
      rw [pyChoice, M.bind_ok] at h
      obtain ⟨k, g₁, _, h⟩ := h
      have ha : a = (x :: xs).getD (k % (xs.length + 1)) x := by
        have := h
        simp only [M.pure_apply, Except.ok.injEq, Prod.mk.injEq] at this
        exact this.1.symm
      rw [ha]
      exact getD_mem _ _ _ (by simp)

theorem exists_map_of_int :
    ∀ vs : List JVal, (∀ v ∈ vs, ∃ n : Int, v = .i n) →
      ∃ ints : List Int, vs = ints.map JVal.i
  | [], _ => ⟨[], rfl⟩
  | v :: rest, h => by
      obtain ⟨n, rfl⟩ := h v (by simp)
      obtain ⟨ints, rfl⟩ :=
        exists_map_of_int rest (fun u hu => h u (by simp [hu]))
      exact ⟨n :: ints, rfl⟩

theorem exists_map_of_str :
    ∀ vs : List JVal, (∀ v ∈ vs, ∃ t : String, v = .s t) →
      ∃ strs : List String, vs = strs.map JVal.s
  | [], _ => ⟨[], rfl⟩
  | v :: rest, h => by
      obtain ⟨t, rfl⟩ := h v (by simp)
      obtain ⟨strs, rfl⟩ :=
        exists_map_of_str rest (fun u hu => h u (by simp [hu]))
      exact ⟨t :: strs, rfl⟩

theorem exists_map_of_arr :
    ∀ vs : List JVal, (∀ v ∈ vs, ∃ l : List JVal, v = .arr l) →
      ∃ lls : List (List JVal), vs = lls.map JVal.arr
  | [], _ => ⟨[], rfl⟩
  | v :: rest, h => by
      obtain ⟨l, rfl⟩ := h v (by simp)
      obtain ⟨lls, rfl⟩ :=
        exists_map_of_arr rest (fun u hu => h u (by simp [hu]))
      exact ⟨l :: lls, rfl⟩

/-- The enum value loop over integer members adds 2|v| per member. -/
theorem enumLoop_int (values : List JVal) (tname : String)
    (hs : (tname == "string") = false)
    (harr : (tname == "array") = false)
    (hobj : (tname == "object") = false)
    (hnum : ((tname == "integer") || (tname == "number")) = true) :
    ∀ (l : List Int) (a : Int),
      enumLoop values (.s tname) (.i a) (l.map JVal.i)
        = .ok (.i (a + 2 * (l.map fun n => |n|).sum)) := by
  intro l
  induction l with
  | nil => intro a; simp [enumLoop]
  | cons x rest ih =>
      intro a
      have hstep : enumStep values (.s tname) (.i a) (.i x)
          = .ok (.inl (.i (a + (|x| + |x|)))) := by
        simp [enumStep, isStr, hs, harr, hobj, hnum, pyAbs, pyAdd, toNum,
          Bind.bind, Except.bind]
      simp only [List.map_cons, enumLoop, hstep, Bind.bind, Except.bind]
      rw [ih (a + (|x| + |x|))]
      simp only [List.map_cons, List.sum_cons]
      ring_nf

/-- The enum value loop over string members appends each member twice. -/
theorem enumLoop_str (values : List JVal) :
    ∀ (l : List String) (a : String),
      ∃ r : String,
        enumLoop values (.s "string") (.s a) (l.map JVal.s) = .ok (.s r)
          ∧ r.length = a.length + 2 * (l.map String.length).sum := by
  intro l
  induction l with
  | nil => intro a; exact ⟨a, by simp [enumLoop], by simp⟩
  | cons x rest ih =>
      intro a
      obtain ⟨r, hr, hlen⟩ := ih (a ++ (x ++ x))
      have hstep : enumStep values (.s "string") (.s a) (.s x)
          = .ok (.inl (.s (a ++ (x ++ x)))) := by
        simp [enumStep, isStr, pyAdd, toNum, Bind.bind, Except.bind]
      refine ⟨r, ?_, ?_⟩
      · simp only [List.map_cons, enumLoop, hstep, Bind.bind, Except.bind]
        exact hr
      · rw [hlen]
        simp [String.length_append]
        ring_nf

/-- The enum value loop over array members extends with each member
twice. -/
theorem enumLoop_arr (values : List JVal) :
    ∀ (lls : List (List JVal)) (acc : List JVal),
      ∃ r : List JVal,
        enumLoop values (.s "array") (.arr acc) (lls.map JVal.arr)
          = .ok (.arr r)
          ∧ r.length = acc.length + 2 * (lls.map List.length).sum := by
  intro lls
  induction lls with
  | nil => intro acc; exact ⟨acc, by simp [enumLoop], by simp⟩
  | cons x rest ih =>
      intro acc
      obtain ⟨r, hr, hlen⟩ := ih (acc ++ x ++ x)
      have hstep : enumStep values (.s "array") (.arr acc) (.arr x)
          = .ok (.inl (.arr (acc ++ x ++ x))) := by
        simp [enumStep, isStr, iterElems, Bind.bind, Except.bind]
      refine ⟨r, ?_, ?_⟩
      · simp only [List.map_cons, enumLoop, hstep, Bind.bind, Except.bind]
        exact hr
      · rw [hlen]
        simp
        ring_nf

theorem str_eq_empty_of_length_zero (t : String) (h : t.length = 0) : t = "" := by
  cases t with
  | mk data =>
      cases data with
      | nil => rfl
      | cons c cs => simp [String.length] at h

theorem abs_sum_nonneg (l : List Int) : 0 ≤ (l.map fun n => |n|).sum := by
  apply List.sum_nonneg
  intro x hx
  obtain ⟨y, _, rfl⟩ := List.mem_map.mp hx
  positivity

theorem int_le_abs_sum (l : List Int) (x : Int) (hx : x ∈ l) :
    x ≤ (l.map fun n => |n|).sum := by
  calc x ≤ |x| := le_abs_self x
  _ ≤ (l.map fun n => |n|).sum := by
    apply List.single_le_sum
    · intro y hy
      obtain ⟨u, _, rfl⟩ := List.mem_map.mp hy
      positivity
    · exact List.mem_map.mpr ⟨x, hx, rfl⟩

theorem abs_sum_pos_of_nodup (l : List Int) (hnd : l.Nodup) (hlen : 2 ≤ l.length) :
    1 ≤ (l.map fun n => |n|).sum := by
  match l, hlen with
  | a :: b :: t, _ =>
    have hab : a ≠ b := by
      have := hnd
      simp [List.nodup_cons] at this
      exact fun h => this.1.1 (h ▸ rfl)
    have hne : ¬ (a = 0 ∧ b = 0) := by
      rintro ⟨rfl, rfl⟩
      exact hab rfl
    have ht : 0 ≤ (t.map fun n => |n|).sum := abs_sum_nonneg t
    simp only [List.map_cons, List.sum_cons]
    rcases eq_or_ne a 0 with rfl | ha
    · have hb : b ≠ 0 := fun h => hne ⟨rfl, h⟩
      have h1 : 1 ≤ |b| := Int.one_le_abs (by simpa using hb)
      have h0 : |(0 : Int)| = 0 := abs_zero
      omega
    · have h1 : 1 ≤ |a| := Int.one_le_abs (by simpa using ha)
      have hb : 0 ≤ |b| := abs_nonneg b
      omega

theorem nat_le_sum (l : List Nat) (x : Nat) (hx : x ∈ l) : x ≤ l.sum :=
  List.single_le_sum (fun y _ => Nat.zero_le y) x hx

/-- The enum-strategy path of get_invalid_value: with no constraint list
and a truthy enum, a non-None enum-invalidation result is returned with
current_value untouched. -/
theorem get_invalid_value_enum_path (fuel : Nat) (value_schema : Jobj)
    (cur : JVal) (g : RandState) (t : JVal) (vs : List JVal) (R : JVal)
    (htype : dget value_schema "type" = some t)
    (henum : dget value_schema "enum" = some (.arr vs))
    (hvs : vs ≠ [])
    (hres : get_invalid_value_from_enum vs t = .ok R)
    (hR : isNull R = false) :
    get_invalid_value fuel value_schema cur [] g = .ok ((R, cur), g) := by
  have htr : truthy (.arr vs) = true := by simp [truthy, hvs]
  simp [get_invalid_value, getKey, htype, dgetD, henum, htr, hres, hR,
    show isNull JVal.null = true from rfl,
    M.bind, M.pure, M.ofExcept, M.err, Bind.bind, Pure.pure]

/-- C1 amended: for a schema whose enum holds at least two distinct values,
get_valid_value always returns an enum member; and for the string, integer,
number and array member shapes, get_invalid_value (without an external
constraint list) never returns an enum member.  (The object shape is
excluded: see the counterexample.) -/
theorem C1_enum_membership_amended (fuel : Nat) (value_schema : Jobj)
    (vs : List JVal)
    (henum : dget value_schema "enum" = some (.arr vs))
    (hnodup : vs.Nodup) (hlen : 2 ≤ vs.length) :
    (∀ (g g' : RandState) (v : JVal),
      get_valid_value (fuel + 1) value_schema g = .ok (v, g') → v ∈ vs)
  ∧ (∀ (tname : String) (cur : JVal) (g g' : RandState) (r cur' : JVal),
      dget value_schema "type" = some (.s tname) →
      tname = "integer" ∨ tname = "number" →
      (∀ v ∈ vs, ∃ n : Int, v = .i n) →
      get_invalid_value fuel value_schema cur [] g = .ok ((r, cur'), g') →
      r ∉ vs)
  ∧ (∀ (cur : JVal) (g g' : RandState) (r cur' : JVal),
      dget value_schema "type" = some (.s "string") →
      (∀ v ∈ vs, ∃ t : String, v = .s t) →
      get_invalid_value fuel value_schema cur [] g = .ok ((r, cur'), g') →
      r ∉ vs)
  ∧ (∀ (cur : JVal) (g g' : RandState) (r cur' : JVal),
      dget value_schema "type" = some (.s "array") →
      (∀ v ∈ vs, ∃ l : List JVal, v = .arr l) →
      get_invalid_value fuel value_schema cur [] g = .ok ((r, cur'), g') →
      r ∉ vs) := by
  have hvs : vs ≠ [] := by
    intro h
    rw [h] at hlen
    simp at hlen
  refine ⟨?_, ?_, ?_, ?_⟩
  · intro g g' v h
    have htr : truthy (.arr vs) = true := by simp [truthy, hvs]
    simp only [get_valid_value, dgetD, henum, Option.getD_some, htr,
      if_true] at h
    exact pyChoice_mem vs g g' v h
  · rintro tname cur g g' r cur' htype hnt hshape hrun
    obtain ⟨ints, rfl⟩ := exists_map_of_int vs hshape
    have hndi : ints.Nodup := hnodup.of_map
    have hleni : 2 ≤ ints.length := by simpa using hlen
    have hs2 : (tname == "string") = false := by
      rcases hnt with rfl | rfl <;> simp
    have harr2 : (tname == "array") = false := by
      rcases hnt with rfl | rfl <;> simp
    have hobj2 : (tname == "object") = false := by
      rcases hnt with rfl | rfl <;> simp
    have hnum2 : ((tname == "integer") || (tname == "number")) = true := by
      rcases hnt with rfl | rfl <;> simp
    have henumres : get_invalid_value_from_enum (ints.map JVal.i) (.s tname)
        = .ok (.i (2 * (ints.map fun n => |n|).sum)) := by
      simp only [get_invalid_value_from_enum, isStr, hs2, harr2, hobj2, hnum2,
        Bool.false_eq_true, if_false, if_true]
      rw [enumLoop_int _ tname hs2 harr2 hobj2 hnum2 ints 0]
      simp
    have hrun2 := get_invalid_value_enum_path fuel value_schema cur g
      (.s tname) (ints.map JVal.i) _ htype henum hvs henumres
      (by simp [isNull])
    rw [hrun2] at hrun
    cases hrun
    set S := (ints.map fun n => |n|).sum with hSdef
    have hSpos : 1 ≤ S := abs_sum_pos_of_nodup ints hndi hleni
    simp only [List.mem_map, not_exists]
    rintro x ⟨hx, hx2⟩
    have hle := int_le_abs_sum ints x hx
    have hx2e : x = 2 * S := by
      cases hx2
      rfl
    rw [← hSdef] at hle
    omega
  · rintro cur g g' r cur' htype hshape hrun
    obtain ⟨strs, rfl⟩ := exists_map_of_str vs hshape
    have hnds : strs.Nodup := hnodup.of_map
    have hlens : 2 ≤ strs.length := by simpa using hlen
    obtain ⟨r0, hr0, hlen0⟩ := enumLoop_str (strs.map JVal.s) strs ""
    have henumres : get_invalid_value_from_enum (strs.map JVal.s)
        (.s "string") = .ok (.s r0) := by
      simp only [get_invalid_value_from_enum, isStr]
      simpa using hr0
    have hrun2 := get_invalid_value_enum_path fuel value_schema cur g
      (.s "string") (strs.map JVal.s) _ htype henum hvs henumres
      (by simp [isNull])
    rw [hrun2] at hrun
    cases hrun
    set T := (strs.map String.length).sum with hTdef
    have hr0len : r0.length = 2 * T := by
      rw [hlen0]
      simp
    have hTpos : 1 ≤ T := by
      match strs, hlens, hnds with
      | a :: b :: t, _, hnd =>
        have hab : a ≠ b := by
          simp [List.nodup_cons] at hnd
          exact fun h => hnd.1.1 (h ▸ rfl)
        simp only [List.map_cons, List.sum_cons, hTdef]
        by_contra hc
        push_neg at hc
        have ha0 : a.length = 0 := by omega
        have hb0 : b.length = 0 := by omega
        exact hab ((str_eq_empty_of_length_zero a ha0).trans
          (str_eq_empty_of_length_zero b hb0).symm)
    simp only [List.mem_map, not_exists]
    rintro t ⟨ht, ht2⟩
    have hle : t.length ≤ T := nat_le_sum _ _ (List.mem_map.mpr ⟨t, ht, rfl⟩)
    have ht2e : t = r0 := by
      cases ht2
      rfl
    rw [ht2e, hr0len] at hle
    omega
  · rintro cur g g' r cur' htype hshape hrun
    obtain ⟨lls, rfl⟩ := exists_map_of_arr vs hshape
    have hndl : lls.Nodup := hnodup.of_map
    have hlenl : 2 ≤ lls.length := by simpa using hlen
    obtain ⟨r0, hr0, hlen0⟩ := enumLoop_arr (lls.map JVal.arr) lls []
    have henumres : get_invalid_value_from_enum (lls.map JVal.arr)
        (.s "array") = .ok (.arr r0) := by
      simp only [get_invalid_value_from_enum, isStr]
      simpa using hr0
    have hrun2 := get_invalid_value_enum_path fuel value_schema cur g
      (.s "array") (lls.map JVal.arr) _ htype henum hvs henumres
      (by simp [isNull])
    rw [hrun2] at hrun
    cases hrun
    set A := (lls.map List.length).sum with hAdef
    have hr0len : r0.length = 2 * A := by
      rw [hlen0]
      simp
    have hApos : 1 ≤ A := by
      match lls, hlenl, hndl with
      | a :: b :: t, _, hnd =>
        have hab : a ≠ b := by
          simp [List.nodup_cons] at hnd
          exact fun h => hnd.1.1 (h ▸ rfl)
        simp only [List.map_cons, List.sum_cons, hAdef]
        by_contra hc
        push_neg at hc
        have ha0 : a.length = 0 := by omega
        have hb0 : b.length = 0 := by omega
        exact hab ((List.length_eq_zero.mp ha0).trans
          (List.length_eq_zero.mp hb0).symm)
    simp only [List.mem_map, not_exists]
    rintro t ⟨ht, ht2⟩
    have hle : t.length ≤ A := nat_le_sum _ _ (List.mem_map.mpr ⟨t, ht, rfl⟩)
    have ht2e : t = r0 := by
      cases ht2
      rfl
    rw [ht2e, hr0len] at hle
    omega

/-- C1 amended, witnessed on the enum [1, 2]: the valid value (draw 0) is
the member 1, and the invalid value is 6 = 2 * (1 + 2), outside the enum. -/
theorem C1_enum_membership_amended_witness :
    (JVal.i 1 ∈ [JVal.i 1, JVal.i 2])
  ∧ (JVal.i 6 ∉ [JVal.i 1, JVal.i 2]) := by
  have h := C1_enum_membership_amended 2
    [("type", .s "integer"), ("enum", .arr [.i 1, .i 2])] [.i 1, .i 2]
    (by simp [dget]) (by simp) (by simp)
  constructor
  · exact h.1 ⟨[0], []⟩ ⟨[], []⟩ (.i 1) rfl
  · exact h.2.1 "integer" (.i 5) ⟨[], []⟩ ⟨[], []⟩ (.i 6) (.i 5)
      (by simp [dget]) (Or.inl rfl)
      (by
        intro v hv
        simp only [List.mem_cons, List.not_mem_nil, or_false] at hv
        rcases hv with rfl | rfl
        · exact ⟨1, rfl⟩
        · exact ⟨2, rfl⟩)
      rfl

/- ------------------------------------------------------------------ -/
/- Claim C8                                                            -/
/- ------------------------------------------------------------------ -/

mutual

/-- A schema with no allOf/anyOf/oneOf key at the top level or inside any
dict-typed value, recursively (resolve_schema does not look into lists, so
list contents are not constrained): the claim's "no composition keys
remain after one pass". -/
def fullyResolved (d : Jobj) : Bool :=
  !(dmem d "allOf") && (!(dmem d "anyOf") && (!(dmem d "oneOf") && frVals d))
termination_by (sizeOf d, 1)
decreasing_by all_goals (simp_wf; try omega)

def frVals : Jobj → Bool
  | [] => true
  | (_, v) :: rest => frVal v && frVals rest
termination_by d => (sizeOf d, 0)
decreasing_by all_goals (simp_wf; try omega)

def frVal : JVal → Bool
  | .obj o => fullyResolved o
  | _ => true
termination_by v => (sizeOf v, 2)
decreasing_by all_goals (simp_wf; try omega)

end

mutual

/-- Nesting depth of a schema through dict-typed values (the recursion
depth resolve_schema needs). -/
def jdepth : Jobj → Nat
  | [] => 0
  | (_, v) :: rest => max (jdepthV v) (jdepth rest)
termination_by d => sizeOf d
decreasing_by all_goals (simp_wf; try omega)

def jdepthV : JVal → Nat
  | .obj o => jdepth o + 1
  | _ => 0
termination_by v => sizeOf v
decreasing_by all_goals (simp_wf; try omega)

end

theorem dget_none_of_dmem_false (d : Jobj) (k : String) (h : dmem d k = false) :
    dget d k = none := by
  rcases hv : dget d k with _ | v
  · rfl
  · rw [dmem, hv] at h
    simp at h

theorem dpop_id (k : String) :
    ∀ d : Jobj, dmem d k = false → dpop d k = d := by
  intro d
  induction d with
  | nil => intro _; rfl
  | cons kv rest ih =>
      obtain ⟨k', v⟩ := kv
      intro h
      rw [dmem, dget] at h
      by_cases hk : k' = k
      · rw [if_pos hk] at h
        simp at h
      · rw [if_neg hk] at h
        rw [dpop, if_neg hk, ih h]

theorem resolveValues_id (fuel : Nat)
    (hres : ∀ o : Jobj, fullyResolved o = true → jdepth o < fuel →
      resolve_schema fuel o = .ok o) :
    ∀ d : Jobj, frVals d = true → jdepth d ≤ fuel →
      resolveValuesWith (resolve_schema fuel) d = .ok d := by
  intro d
  induction d with
  | nil => intro _ _; rfl
  | cons kv rest ih =>
      obtain ⟨k, v⟩ := kv
      intro hfr hd
      rw [frVals] at hfr
      rw [jdepth] at hd
      have hvfr : frVal v = true := by
        cases hb : frVal v
        · rw [hb] at hfr
          simp at hfr
        · rfl
      have hrest : frVals rest = true := by
        cases hb : frVals rest
        · rw [hb] at hfr
          simp [hb] at hfr
        · rfl
      have ihr := ih hrest (le_trans (le_max_right _ _) hd)
      cases v with
      | obj o =>
          have ho : fullyResolved o = true := by
            rw [frVal] at hvfr
            exact hvfr
          have hdo : jdepth o < fuel := by
            have : jdepthV (.obj o) ≤ fuel := le_trans (le_max_left _ _) hd
            rw [jdepthV] at this
            omega
          simp [resolveValuesWith, hres o ho hdo, ihr, Bind.bind, Except.bind]
      | null => simp [resolveValuesWith, ihr, Bind.bind, Except.bind]
      | b b' => simp [resolveValuesWith, ihr, Bind.bind, Except.bind]
      | i n => simp [resolveValuesWith, ihr, Bind.bind, Except.bind]
      | s t => simp [resolveValuesWith, ihr, Bind.bind, Except.bind]
      | arr l => simp [resolveValuesWith, ihr, Bind.bind, Except.bind]
      | ignore => simp [resolveValuesWith, ihr, Bind.bind, Except.bind]

/-- resolve_schema is the identity on fully resolved schemas (given enough
fuel for the nesting depth). -/
theorem resolve_schema_id (fuel : Nat) :
    ∀ r : Jobj, fullyResolved r = true → jdepth r < fuel →
      resolve_schema fuel r = .ok r := by
  induction fuel with
  | zero =>
      intro r _ h
      omega
  | succ fuel ih =>
      intro r hfr hd
      have hfr' := hfr
      rw [fullyResolved] at hfr'
      have hall : dmem r "allOf" = false := by
        cases hb : dmem r "allOf"
        · rfl
        · rw [hb] at hfr'
          simp at hfr'
      have hany : dmem r "anyOf" = false := by
        cases hb : dmem r "anyOf"
        · rfl
        · rw [hb] at hfr'
          simp [hb] at hfr'
      have hone : dmem r "oneOf" = false := by
        cases hb : dmem r "oneOf"
        · rfl
        · rw [hb] at hfr'
          simp [hb] at hfr'
      have hvals : frVals r = true := by
        cases hb : frVals r
        · rw [hb] at hfr'
          simp [hb] at hfr'
        · rfl
      have h1 : resolveValuesWith (resolve_schema fuel) r = .ok r :=
        resolveValues_id fuel (fun o ho hdo => ih o ho hdo) r hvals (by omega)
      simp [resolve_schema, h1, dgetD, dget_none_of_dmem_false _ _ hall,
        dget_none_of_dmem_false _ _ hany, dget_none_of_dmem_false _ _ hone,
        dpop_id _ _ hall, dpop_id _ _ hany, dpop_id _ _ hone, truthy,
        resolvePartsWith, Bind.bind, Except.bind]

/-- C8: resolve_schema is idempotent on every schema for which one pass
succeeds and leaves no allOf/anyOf/oneOf keys (at the top level or inside
any dict-typed value): a second pass returns the first result unchanged,
for any recursion budget exceeding the result's nesting depth. -/
theorem C8_resolve_idempotent (fuel fuel2 : Nat) (schema r : Jobj)
    (hpass : resolve_schema fuel schema = .ok r)
    (hfree : fullyResolved r = true)
    (hfuel : jdepth r < fuel2) :
    resolve_schema fuel2 r = .ok r := by
  have _ := hpass
  exact resolve_schema_id fuel2 r hfree hfuel

/-- C8, witnessed: one pass over an allOf schema merges the parts, and the
second pass leaves the merged result unchanged. -/
theorem C8_resolve_idempotent_witness :
    resolve_schema 5 [("type", .s "string"), ("minLength", .i 1)]
      = .ok [("type", .s "string"), ("minLength", .i 1)] :=
  C8_resolve_idempotent 3 5
    [("allOf", .arr [.obj [("type", .s "string")],
      .obj [("minLength", .i 1)]])]
    [("type", .s "string"), ("minLength", .i 1)]
    rfl
    (by simp [fullyResolved, frVals, frVal, dmem, dget])
    (by simp [jdepth, jdepthV])

/- ------------------------------------------------------------------ -/
/- Claim C10                                                           -/
/- ------------------------------------------------------------------ -/

theorem padListLoop_append :
    ∀ (gap : Nat) (l res : List JVal) (g g' : RandState),
      padListLoop gap l g = .ok (res, g') → ∃ extra, res = l ++ extra := by
  intro gap
  induction gap with
  | zero =>
      intro l res g g' h
      have h' : (Except.ok (l, g) : Except PyErr (List JVal × RandState))
          = .ok (res, g') := h
      cases h'
      exact ⟨[], by simp⟩
  | succ gap ih =>
      intro l res g g' h
      rw [padListLoop, M.bind_ok] at h
      obtain ⟨c, g₁, _, h⟩ := h
      obtain ⟨extra, hextra⟩ := ih (l ++ [c]) res g₁ g' h
      exact ⟨[c] ++ extra, by simp [hextra]⟩

theorem dset_self (k : String) :
    ∀ (d : Jobj) (v : JVal), dget d k = some v → dset d k v = d := by
  intro d
  induction d with
  | nil => intro v h; simp [dget] at h
  | cons kv rest ih =>
      obtain ⟨k', w⟩ := kv
      intro v h
      rw [dget] at h
      by_cases hk : k' = k
      · rw [if_pos hk] at h
        cases h
        rw [dset, if_pos hk]
      · rw [if_neg hk] at h
        rw [dset, if_neg hk, ih v h]

/-- get_value_out_of_bounds leaves current_value untouched except in the
array maxItems branch, which extends the caller's list in place. -/
theorem oob_current (s : Jobj) (cur v cur' : JVal) (g g' : RandState)
    (h : get_value_out_of_bounds s cur g = .ok ((v, cur'), g')) :
    cur' = cur ∨ ∃ (l extra : List JVal), cur = .arr l ∧
      cur' = .arr (l ++ extra) := by
  unfold get_value_out_of_bounds at h
  rw [M.bind_ok] at h
  obtain ⟨vt, g₁, hvt, h⟩ := h
  dsimp only at h
  split at h
  · -- integer / number chain
    split at h
    · rw [M.bind_ok] at h
      obtain ⟨n, g₂, _, h⟩ := h
      simp only [M.pure_apply, Except.ok.injEq, Prod.mk.injEq] at h
      exact Or.inl h.1.2.symm
    · split at h
      · rw [M.bind_ok] at h
        obtain ⟨n, g₂, _, h⟩ := h
        simp only [M.pure_apply, Except.ok.injEq, Prod.mk.injEq] at h
        exact Or.inl h.1.2.symm
      · split at h
        · simp only [M.pure_apply, Except.ok.injEq, Prod.mk.injEq] at h
          exact Or.inl h.1.2.symm
        · split at h
          · simp only [M.pure_apply, Except.ok.injEq, Prod.mk.injEq] at h
            exact Or.inl h.1.2.symm
          · simp only [M.pure_apply, Except.ok.injEq, Prod.mk.injEq] at h
            exact Or.inl h.1.2.symm
  · split at h
    · -- array chain
      rw [M.bind_ok] at h
      obtain ⟨minItems, g₂, _, h⟩ := h
      split at h
      · split at h
        · simp only [M.pure_apply, Except.ok.injEq, Prod.mk.injEq] at h
          exact Or.inl h.1.2.symm
        · simp only [M.pure_apply, Except.ok.injEq, Prod.mk.injEq] at h
          exact Or.inl h.1.2.symm
        · simp [M.err] at h
      · split at h
        · rw [M.bind_ok] at h
          obtain ⟨maxN, g₃, _, h⟩ := h
          split at h
          · split at h
            · rename_i l htr
              rw [M.bind_ok] at h
              obtain ⟨padded, g₄, hpad, h⟩ := h
              obtain ⟨extra, rfl⟩ := padListLoop_append _ _ _ _ _ hpad
              simp only [M.pure_apply, Except.ok.injEq, Prod.mk.injEq] at h
              exact Or.inr ⟨l, extra, rfl, h.1.2.symm⟩
            · simp [M.err] at h
          · rw [M.bind_ok] at h
            obtain ⟨padded, g₄, _, h⟩ := h
            simp only [M.pure_apply, Except.ok.injEq, Prod.mk.injEq] at h
            exact Or.inl h.1.2.symm
        · simp only [M.pure_apply, Except.ok.injEq, Prod.mk.injEq] at h
          exact Or.inl h.1.2.symm
    · split at h
      · -- string chain
        split at h
        · rw [M.bind_ok] at h
          obtain ⟨n, g₂, _, h⟩ := h
          split at h
          · simp only [M.pure_apply, Except.ok.injEq, Prod.mk.injEq] at h
            exact Or.inl h.1.2.symm
          · simp only [M.pure_apply, Except.ok.injEq, Prod.mk.injEq] at h
            exact Or.inl h.1.2.symm
          · simp [M.err] at h
        · split at h
          · rw [M.bind_ok] at h
            obtain ⟨maxN, g₂, _, h⟩ := h
            rw [M.bind_ok] at h
            obtain ⟨start, g₃, _, h⟩ := h
            rw [M.bind_ok] at h
            obtain ⟨padded, g₄, _, h⟩ := h
            simp only [M.pure_apply, Except.ok.injEq, Prod.mk.injEq] at h
            exact Or.inl h.1.2.symm
          · simp only [M.pure_apply, Except.ok.injEq, Prod.mk.injEq] at h
            exact Or.inl h.1.2.symm
      · simp only [M.pure_apply, Except.ok.injEq, Prod.mk.injEq] at h
        exact Or.inl h.1.2.symm

/-- Continuation of get_invalid_value after the constraint draw: the only
way current_value changes is through the array branch of
get_value_out_of_bounds. -/
theorem giv_current_tail (s : Jobj) (cur v cur' : JVal) (g g' : RandState)
    (fc vt : JVal)
    (h : ((show M (JVal × JVal) from
      if !isNull fc then pure (fc, cur)
      else do
        let enum := dgetD s "enum" JVal.null
        let fromEnum ←
          if truthy enum then
            match enum with
            | .arr vs => M.ofExcept (get_invalid_value_from_enum vs vt)
            | _ => M.err .typeError
          else pure .null
        if !isNull fromEnum then pure (fromEnum, cur)
        else do
          let oob ← get_value_out_of_bounds s cur
          if !isNull oob.1 then pure oob
          else if isStr vt "string" then
            pure (.arr [.obj [("invalid", .arr [.null, .b false])], .s "null",
              .null, .b true], oob.2)
          else do
            let u ← drawStr
            pure (.s u, oob.2)) g = .ok ((v, cur'), g'))) :
    cur' = cur ∨ ∃ (l extra : List JVal), cur = .arr l ∧
      cur' = .arr (l ++ extra) := by
  split at h
  · simp only [M.pure_apply, Except.ok.injEq, Prod.mk.injEq] at h
    exact Or.inl h.1.2.symm
  · dsimp only at h
    have htail : ∀ (fe : JVal) (g₂ : RandState),
        ((show M (JVal × JVal) from
          if !isNull fe then pure (fe, cur)
          else do
            let oob ← get_value_out_of_bounds s cur
            if !isNull oob.1 then pure oob
            else if isStr vt "string" then
              pure (.arr [.obj [("invalid", .arr [.null, .b false])],
                .s "null", .null, .b true], oob.2)
            else do
              let u ← drawStr
              pure (.s u, oob.2)) g₂ = .ok ((v, cur'), g')) →
        cur' = cur ∨ ∃ (l extra : List JVal), cur = .arr l ∧
          cur' = .arr (l ++ extra) := by
      intro fe g₂ h
      split at h
      · simp only [M.pure_apply, Except.ok.injEq, Prod.mk.injEq] at h
        exact Or.inl h.1.2.symm
      · rw [M.bind_ok] at h
        obtain ⟨oob, g₃, hoob, h⟩ := h
        obtain ⟨ov, ocur⟩ := oob
        have hcur := oob_current s cur ov ocur g₂ g₃ hoob
        split at h
        · simp only [M.pure_apply, Except.ok.injEq, Prod.mk.injEq] at h
          rw [← h.1.2.symm] at hcur
          exact hcur
        · split at h
          · simp only [M.pure_apply, Except.ok.injEq, Prod.mk.injEq] at h
            rw [← h.1.2.symm] at hcur
            exact hcur
          · rw [M.bind_ok] at h
            obtain ⟨u, g₄, _, h⟩ := h
            simp only [M.pure_apply, Except.ok.injEq, Prod.mk.injEq] at h
            rw [← h.1.2.symm] at hcur
            exact hcur
    split at h
    · generalize dgetD s "enum" JVal.null = e at h
      cases e
      case arr vs =>
        rw [M.bind_ok] at h
        obtain ⟨fe, g₂, _, h⟩ := h
        exact htail fe g₂ h
      all_goals rw [M.bind_ok] at h
      all_goals obtain ⟨a, gx, ha, _⟩ := h
      all_goals simp [M.err] at ha
    · rw [M.bind_ok] at h
      obtain ⟨fe, g₂, hfe, h⟩ := h
      exact htail fe g₂ h

/-- get_invalid_value leaves current_value untouched except through the
array bound-violation path of get_value_out_of_bounds. -/
theorem giv_current (fuel : Nat) (s : Jobj) (cur : JVal) (vfc : List JVal)
    (v cur' : JVal) (g g' : RandState)
    (h : get_invalid_value fuel s cur vfc g = .ok ((v, cur'), g')) :
    cur' = cur ∨ ∃ (l extra : List JVal), cur = .arr l ∧
      cur' = .arr (l ++ extra) := by
  unfold get_invalid_value at h
  rw [M.bind_ok] at h
  obtain ⟨vt, g₁, hvt, h⟩ := h
  split at h
  · rw [M.bind_ok] at h
    obtain ⟨fc, g₂, _, h⟩ := h
    exact giv_current_tail s cur v cur' g₂ g' fc vt h
  · rw [M.bind_ok] at h
    obtain ⟨fc, g₂, hfc, h⟩ := h
    simp only [M.pure_apply, Except.ok.injEq, Prod.mk.injEq] at hfc
    exact giv_current_tail s cur v cur' g₂ g' fc vt h

/-- The loop body of get_invalidated_data leaves the dto's own property
values untouched, except that the bound-violation strategy can extend a
list-valued property in place through the aliasing of as_dict. -/
theorem invalidateProperty_frame (fuel : Nat) (dto : DtoModel)
    (schema : Jobj) (relations : List Relation) (status_code : Int)
    (name : String) (props' dtoAfter : Jobj) (g g' : RandState)
    (h : invalidateProperty fuel dto dto.props schema relations status_code
      name g = .ok ((props', dtoAfter), g')) :
    dtoAfter = dto.props ∨
      ∃ (l extra : List JVal), dget dto.props name = some (.arr l) ∧
        dtoAfter = dset dto.props name (.arr (l ++ extra)) := by
  have htail2 : ∀ (value_schema : Jobj) (cur : JVal) (g₂ : RandState),
      (dget dto.props name = some cur ∨ dmem dto.props name = false) →
      ((show M (Jobj × Jobj) from do
        let values_from_constraint ← M.ofExcept (constraintHeads relations name)
        let r ← get_invalid_value fuel value_schema cur values_from_constraint
        let dtoAfter := if dmem dto.props name then dset dto.props name r.2
          else dto.props
        pure (dset dto.props name r.1, dtoAfter)) g₂
          = .ok ((props', dtoAfter), g')) →
      dtoAfter = dto.props ∨
        ∃ (l extra : List JVal), dget dto.props name = some (.arr l) ∧
          dtoAfter = dset dto.props name (.arr (l ++ extra)) := by
    intro value_schema cur g₂ hcur h
    rw [M.bind_ok] at h
    obtain ⟨vfc, g₃, _, h⟩ := h
    rw [M.bind_ok] at h
    obtain ⟨r, g₄, hr, h⟩ := h
    obtain ⟨rv, rcur⟩ := r
    dsimp only at h
    split at h
    · rename_i hmem
      simp only [M.pure_apply, Except.ok.injEq, Prod.mk.injEq] at h
      have hda : dtoAfter = dset dto.props name rcur := h.1.2.symm
      rcases hcur with hget | hmem'
      · have hc := giv_current fuel value_schema cur vfc rv rcur g₃ g₄ hr
        rcases hc with heq | ⟨l, extra, heq1, heq2⟩
        · rw [heq] at hda
          exact Or.inl (by rw [hda, dset_self name dto.props cur hget])
        · rw [heq1] at hget
          rw [heq2] at hda
          exact Or.inr ⟨l, extra, hget, hda⟩
      · rw [hmem'] at hmem
        cases hmem
    · simp only [M.pure_apply, Except.ok.injEq, Prod.mk.injEq] at h
      exact Or.inl h.1.2.symm
  have htail1 : ∀ (value_schema : Jobj) (g₂ : RandState),
      ((show M (Jobj × Jobj) from do
        let current_value ← (match dget dto.props name with
          | some v => M.pure v
          | none => do
              let property_type ← getKey value_schema "type"
              if isStr property_type "object" then pure (.obj [])
              else if isStr property_type "array" then pure (.arr [])
              else get_valid_value fuel value_schema : M JVal)
        let values_from_constraint ← M.ofExcept (constraintHeads relations name)
        let r ← get_invalid_value fuel value_schema current_value
          values_from_constraint
        let dtoAfter := if dmem dto.props name then dset dto.props name r.2
          else dto.props
        pure (dset dto.props name r.1, dtoAfter)) g₂
          = .ok ((props', dtoAfter), g')) →
      dtoAfter = dto.props ∨
        ∃ (l extra : List JVal), dget dto.props name = some (.arr l) ∧
          dtoAfter = dset dto.props name (.arr (l ++ extra)) := by
    intro value_schema g₂ h
    rw [M.bind_ok] at h
    obtain ⟨cur, g₃, hcurv, h⟩ := h
    have hcase : dget dto.props name = some cur ∨ dmem dto.props name = false := by
      rcases hget : dget dto.props name with _ | v
      · exact Or.inr (by simp [dmem, hget])
      · rw [hget] at hcurv
        dsimp only at hcurv
        simp only [M.pure, Except.ok.injEq, Prod.mk.injEq] at hcurv
        exact Or.inl (by rw [hcurv.1])
    exact htail2 value_schema cur g₃ hcase h
  unfold invalidateProperty at h
  dsimp only at h
  split at h
  · rw [M.bind_ok] at h
    obtain ⟨pv, g₁, _, h⟩ := h
    rw [M.bind_ok] at h
    obtain ⟨iv, g₂, _, h⟩ := h
    simp only [M.pure_apply, Except.ok.injEq, Prod.mk.injEq] at h
    exact Or.inl h.1.2.symm
  · generalize List.filterMap (constraintInvalidValue name status_code)
      relations = cands at h
    cases cands with
    | nil =>
        rw [M.bind_ok] at h
        obtain ⟨props_schema, g₁, _, h⟩ := h
        rw [M.bind_ok] at h
        obtain ⟨vs0, g₂, _, h⟩ := h
        rw [M.bind_ok] at h
        obtain ⟨vs1, g₃, _, h⟩ := h
        split at h
        · generalize dgetD vs1 "types" JVal.null = tys at h
          cases tys
          case arr vss =>
            dsimp only at h
            split at h
            · rw [M.bind_ok] at h
              obtain ⟨vss2, g₄, _, h⟩ := h
              rw [M.bind_ok] at h
              obtain ⟨chosen, g₅, _, h⟩ := h
              cases chosen
              case obj o =>
                rw [M.bind_ok] at h
                obtain ⟨y, gy, hy, h⟩ := h
                simp only [M.pure_apply, Except.ok.injEq, Prod.mk.injEq] at hy
                obtain ⟨h1, h2⟩ := hy
                subst h1
                subst h2
                exact htail1 _ _ h
              all_goals rw [M.bind_ok] at h
              all_goals obtain ⟨y, gy, hy, _⟩ := h
              all_goals simp [M.err] at hy
            · rw [M.bind_ok] at h
              obtain ⟨vss2, g₄, _, h⟩ := h
              rw [M.bind_ok] at h
              obtain ⟨chosen, g₅, _, h⟩ := h
              cases chosen
              case obj o =>
                rw [M.bind_ok] at h
                obtain ⟨y, gy, hy, h⟩ := h
                simp only [M.pure_apply, Except.ok.injEq, Prod.mk.injEq] at hy
                obtain ⟨h1, h2⟩ := hy
                subst h1
                subst h2
                exact htail1 _ _ h
              all_goals rw [M.bind_ok] at h
              all_goals obtain ⟨y, gy, hy, _⟩ := h
              all_goals simp [M.err] at hy
          all_goals dsimp only at h
          all_goals rw [M.bind_ok] at h
          all_goals obtain ⟨y, gy, hy, _⟩ := h
          all_goals simp [M.err] at hy
        · rw [M.bind_ok] at h
          obtain ⟨y, gy, hy, h⟩ := h
          simp only [M.pure_apply, Except.ok.injEq, Prod.mk.injEq] at hy
          obtain ⟨h1, h2⟩ := hy
          subst h1
          subst h2
          exact htail1 _ _ h
    | cons c ctail =>
      cases c with
      | some iv =>
          dsimp only at h
          simp only [M.pure_apply, Except.ok.injEq, Prod.mk.injEq] at h
          exact Or.inl h.1.2.symm
      | none =>
          rw [M.bind_ok] at h
          obtain ⟨props_schema, g₁, _, h⟩ := h
          rw [M.bind_ok] at h
          obtain ⟨vs0, g₂, _, h⟩ := h
          rw [M.bind_ok] at h
          obtain ⟨vs1, g₃, _, h⟩ := h
          split at h
          · generalize dgetD vs1 "types" JVal.null = tys at h
            cases tys
            case arr vss =>
              dsimp only at h
              split at h
              · rw [M.bind_ok] at h
                obtain ⟨vss2, g₄, _, h⟩ := h
                rw [M.bind_ok] at h
                obtain ⟨chosen, g₅, _, h⟩ := h
                cases chosen
                case obj o =>
                  rw [M.bind_ok] at h
                  obtain ⟨y, gy, hy, h⟩ := h
                  simp only [M.pure_apply, Except.ok.injEq, Prod.mk.injEq] at hy
                  obtain ⟨h1, h2⟩ := hy
                  subst h1
                  subst h2
                  exact htail1 _ _ h
                all_goals rw [M.bind_ok] at h
                all_goals obtain ⟨y, gy, hy, _⟩ := h
                all_goals simp [M.err] at hy
              · rw [M.bind_ok] at h
                obtain ⟨vss2, g₄, _, h⟩ := h
                rw [M.bind_ok] at h
                obtain ⟨chosen, g₅, _, h⟩ := h
                cases chosen
                case obj o =>
                  rw [M.bind_ok] at h
                  obtain ⟨y, gy, hy, h⟩ := h
                  simp only [M.pure_apply, Except.ok.injEq, Prod.mk.injEq] at hy
                  obtain ⟨h1, h2⟩ := hy
                  subst h1
                  subst h2
                  exact htail1 _ _ h
                all_goals rw [M.bind_ok] at h
                all_goals obtain ⟨y, gy, hy, _⟩ := h
                all_goals simp [M.err] at hy
            all_goals dsimp only at h
            all_goals rw [M.bind_ok] at h
            all_goals obtain ⟨y, gy, hy, _⟩ := h
            all_goals simp [M.err] at hy
          · rw [M.bind_ok] at h
            obtain ⟨y, gy, hy, h⟩ := h
            simp only [M.pure_apply, Except.ok.injEq, Prod.mk.injEq] at hy
            obtain ⟨h1, h2⟩ := hy
            subst h1
            subst h2
            exact htail1 _ _ h

/-- C10 is refuted on an array-typed property: the bound-violation strategy
appends to the dto's own list through the aliasing of as_dict, so after the
call the dto's property value has grown from [1] to [1, 1, 1]. -/
theorem C10_mutation_counterexample :
    get_invalidated_data 5 ⟨[("a", .arr [.i 1])], []⟩
        [("properties", .obj [("a", .obj [("type", .s "array"),
          ("maxItems", .i 2)])])] 422 422 ⟨[0, 0, 0], []⟩
      = .ok (([("a", .arr [.i 1, .i 1, .i 1])],
          [("a", .arr [.i 1, .i 1, .i 1])]), ⟨[], []⟩) ∧
    [("a", JVal.arr [.i 1, .i 1, .i 1])] ≠
      (⟨[("a", JVal.arr [.i 1])], []⟩ : DtoModel).props := by
  constructor
  · rfl
  · simp [DtoModel.props]

/-- C10, amended: get_invalidated_data never reassigns the dto's
attributes, but the bound-violation strategy can mutate a list-valued
attribute in place: after a successful call the dto's property values are
either unchanged or changed exactly by extending one list-valued property
with extra elements. -/
theorem C10_frame_amended (fuel : Nat) (dto : DtoModel) (schema : Jobj)
    (status_code invalid_property_default_code : Int)
    (props' dtoAfter : Jobj) (g g' : RandState)
    (h : get_invalidated_data fuel dto schema status_code
      invalid_property_default_code g = .ok ((props', dtoAfter), g')) :
    dtoAfter = dto.props ∨
      ∃ (name : String) (l extra : List JVal),
        dget dto.props name = some (.arr l) ∧
        dtoAfter = dset dto.props name (.arr (l ++ extra)) := by
  unfold get_invalidated_data at h
  dsimp only at h
  rw [M.bind_ok] at h
  obtain ⟨rschema, g₁, _, h⟩ := h
  rw [M.bind_ok] at h
  obtain ⟨property_names, g₂, _, h⟩ := h
  split at h
  · simp [M.err] at h
  · rw [M.bind_ok] at h
    obtain ⟨shuffled, g₃, _, h⟩ := h
    cases shuffled with
    | nil =>
        simp only [M.pure_apply, Except.ok.injEq, Prod.mk.injEq] at h
        exact Or.inl h.1.2.symm
    | cons name rest =>
        rw [show dto.as_dict = dto.props from rfl] at h
        rcases invalidateProperty_frame fuel dto rschema
          ((get_relations_for_error_code dto.relations status_code).filter
            fun r => !r.isPathProps) status_code name props' dtoAfter g₃ g' h
          with hsame | ⟨l, extra, hget, hda⟩
        · exact Or.inl hsame
        · exact Or.inr ⟨name, l, extra, hget, hda⟩

/-- C10 amended, witnessed on the counterexample run: the dto's list-valued
property "a" is extended in place from [1] to [1, 1, 1]. -/
theorem C10_frame_amended_witness :
    [("a", JVal.arr [.i 1, .i 1, .i 1])]
        = (⟨[("a", JVal.arr [.i 1])], []⟩ : DtoModel).props ∨
      ∃ (name : String) (l extra : List JVal),
        dget (⟨[("a", JVal.arr [.i 1])], []⟩ : DtoModel).props name
          = some (.arr l) ∧
        [("a", JVal.arr [.i 1, .i 1, .i 1])]
          = dset (⟨[("a", JVal.arr [.i 1])], []⟩ : DtoModel).props name
              (.arr (l ++ extra)) :=
  C10_frame_amended 5 ⟨[("a", .arr [.i 1])], []⟩
    [("properties", .obj [("a", .obj [("type", .s "array"),
      ("maxItems", .i 2)])])] 422 422
    [("a", .arr [.i 1, .i 1, .i 1])] [("a", .arr [.i 1, .i 1, .i 1])]
    ⟨[0, 0, 0], []⟩ ⟨[], []⟩ rfl

/- ------------------------------------------------------------------ -/
/- Claim C9: error taxonomy of the invalidation pipeline               -/
/- ------------------------------------------------------------------ -/

theorem exNN_ok {α : Type} (a : α) : exNN (.ok a) := by simp [exNN]

theorem exNN_bind {α β : Type} {x : Except PyErr α} {f : α → Except PyErr β}
    (hx : exNN x) (hf : ∀ a, exNN (f a)) : exNN (x >>= f) := by
  cases x with
  | ok a => exact hf a
  | error e =>
      intro h
      rw [show ((Except.error e : Except PyErr α) >>= f) = Except.error e
        from rfl] at h
      cases h
      exact hx rfl

theorem pyAbs_nn (v : JVal) : exNN (pyAbs v) := by
  unfold pyAbs
  split <;> simp [exNN]

theorem pyAdd_nn (x y : JVal) : exNN (pyAdd x y) := by
  unfold pyAdd
  split
  · simp [exNN]
  · split <;> simp [exNN]

theorem json_type_name_nn (v : JVal) : exNN (json_type_name_of_python_type v) := by
  unfold json_type_name_of_python_type
  split <;> simp [exNN]

theorem absFold_nn : ∀ (l : List JVal) (acc : JVal), exNN (absFold acc l) := by
  intro l
  induction l with
  | nil => intro acc; simp [absFold, exNN]
  | cons v rest ih =>
      intro acc
      rw [absFold]
      exact exNN_bind (pyAbs_nn acc) fun a =>
        exNN_bind (pyAbs_nn v) fun b => ih _

theorem addFold_nn : ∀ (l : List JVal) (acc : JVal), exNN (addFold acc l) := by
  intro l
  induction l with
  | nil => intro acc; simp [addFold, exNN]
  | cons v rest ih =>
      intro acc
      rw [addFold]
      exact exNN_bind (pyAdd_nn acc v) fun a => ih _

theorem invalidObjEntriesWith_nn (inv : List JVal → JVal → Except PyErr JVal)
    (hinv : ∀ vs t, exNN (inv vs t)) :
    ∀ entries, exNN (invalidObjEntriesWith inv entries) := by
  intro entries
  induction entries with
  | nil => simp [invalidObjEntriesWith, exNN]
  | cons kv rest ih =>
      obtain ⟨k, v⟩ := kv
      rw [invalidObjEntriesWith]
      exact exNN_bind (json_type_name_nn v) fun jt =>
        exNN_bind (hinv _ _) fun iv =>
          exNN_bind ih fun tail => exNN_ok _

theorem invalidArrElemsWith_nn (inv : List JVal → JVal → Except PyErr JVal)
    (hinv : ∀ vs t, exNN (inv vs t)) :
    ∀ elems, exNN (invalidArrElemsWith inv elems) := by
  intro elems
  induction elems with
  | nil => simp [invalidArrElemsWith, exNN]
  | cons v rest ih =>
      rw [invalidArrElemsWith]
      exact exNN_bind (json_type_name_nn v) fun jt =>
        exNN_bind (hinv _ _) fun iv =>
          exNN_bind ih fun tail => exNN_ok _

theorem get_invalid_value_from_constraint_nn :
    ∀ (fuel : Nat) (vfc : List JVal) (vt : JVal),
      exNN (get_invalid_value_from_constraint fuel vfc vt) := by
  intro fuel
  induction fuel with
  | zero => intro vfc vt; simp [get_invalid_value_from_constraint, exNN]
  | succ fuel ih =>
      intro vfc vt
      rw [get_invalid_value_from_constraint.eq_def]
      dsimp only
      split
      · simp [exNN]
      · split
        · split <;> simp [exNN]
        · split
          · simp [exNN]
          · split
            · split
              · simp [exNN]
              · exact exNN_bind (invalidObjEntriesWith_nn _ ih _)
                  fun pairs => exNN_ok _
              · simp [exNN]
            · split
              · split
                · simp [exNN]
                · exact exNN_bind (invalidArrElemsWith_nn _ ih _)
                    fun inner => exNN_ok _
                · simp [exNN]
              · split
                · simp [exNN]
                · split
                  · exact exNN_bind (absFold_nn _ _) fun r => by
                      split
                      · simp [exNN]
                      · exact pyAdd_nn _ _
                  · exact exNN_bind (addFold_nn _ _) fun r => exNN_ok _

theorem iterElems_nn (v : JVal) : exNN (iterElems v) := by
  unfold iterElems
  split <;> simp [exNN]

theorem objKeyLoop_nn (values : List JVal) (v : JVal) :
    ∀ (keys : List String) (entries : Jobj),
      exNN (objKeyLoop values v entries keys) := by
  intro keys
  induction keys with
  | nil => intro entries; simp [objKeyLoop, exNN]
  | cons key restKeys ih =>
      intro entries
      rw [objKeyLoop.eq_def]
      dsimp only
      refine exNN_bind ?_ fun newVal => ?_
      · split <;> simp [exNN]
      · dsimp only
        split
        · exact ih _
        · simp [exNN]

theorem enumStep_nn (values : List JVal) (value_type acc v : JVal) :
    exNN (enumStep values value_type acc v) := by
  unfold enumStep
  refine exNN_bind ?_ fun a₁ => ?_
  · split
    · exact exNN_bind (pyAbs_nn _) fun a => pyAdd_nn _ _
    · simp [exNN]
  · refine exNN_bind ?_ fun a₂ => ?_
    · split
      · exact exNN_bind (pyAdd_nn _ _) fun vv => pyAdd_nn _ _
      · simp [exNN]
    · refine exNN_bind ?_ fun a₃ => ?_
      · split
        · split
          · exact exNN_bind (iterElems_nn _) fun e => exNN_ok _
          · simp [exNN]
        · simp [exNN]
      · split
        · split
          · exact exNN_bind (objKeyLoop_nn _ _ _ _) fun r => by
              split <;> simp [exNN]
          · simp [exNN]
        · simp [exNN]

theorem enumLoop_nn (values : List JVal) (value_type : JVal) :
    ∀ (l : List JVal) (acc : JVal), exNN (enumLoop values value_type acc l) := by
  intro l
  induction l with
  | nil => intro acc; simp [enumLoop, exNN]
  | cons v rest ih =>
      intro acc
      rw [enumLoop]
      refine exNN_bind (enumStep_nn _ _ _ _) fun step => ?_
      split
      · exact ih _
      · simp [exNN]

theorem get_invalid_value_from_enum_nn (values : List JVal) (vt : JVal) :
    exNN (get_invalid_value_from_enum values vt) := by
  unfold get_invalid_value_from_enum
  split
  · exact enumLoop_nn _ _ _ _
  · split
    · exact enumLoop_nn _ _ _ _
    · split
      · exact enumLoop_nn _ _ _ _
      · split
        · split
          · simp [exNN]
          · exact enumLoop_nn _ _ _ _
          · simp [exNN]
        · simp [exNN]

theorem filterNullType_nn : ∀ l, exNN (filterNullType l) := by
  intro l
  induction l with
  | nil => simp [filterNullType, exNN]
  | cons v rest ih =>
      rw [filterNullType.eq_def]
      dsimp only
      refine exNN_bind ?_ fun t => exNN_bind ih fun tail => exNN_ok _
      split
      · split <;> simp [exNN]
      · simp [exNN]

theorem constraintHeads_nn (name : String) :
    ∀ relations, exNN (constraintHeads relations name) := by
  intro relations
  induction relations with
  | nil => simp [constraintHeads, exNN]
  | cons r rest ih =>
      rw [constraintHeads.eq_def]
      split
      · simp [exNN]
      · rename_i heq
        cases heq
        split
        · split
          · exact exNN_bind ih fun tail => exNN_ok _
          · simp [exNN]
        · exact ih
      · rename_i heq
        cases heq
        exact ih

theorem mergePairs_nn : ∀ (second merged : Jobj), exNN (mergePairs merged second) := by
  intro second
  induction second with
  | nil => intro merged; simp [mergePairs, exNN]
  | cons kv rest ih =>
      obtain ⟨key, value⟩ := kv
      intro merged
      rw [mergePairs.eq_def]
      dsimp only
      refine exNN_bind ?_ fun merged => ih _
      split
      · split
        · split <;> simp [exNN]
        · split <;> simp [exNN]
        · simp [exNN]
      · simp [exNN]

theorem merge_schemas_nn (first second : Jobj) : exNN (merge_schemas first second) :=
  mergePairs_nn second first

theorem resolveValuesWith_nn (res : Jobj → Except PyErr Jobj)
    (hres : ∀ o, exNN (res o)) : ∀ d, exNN (resolveValuesWith res d) := by
  intro d
  induction d with
  | nil => simp [resolveValuesWith, exNN]
  | cons kv rest ih =>
      obtain ⟨k, v⟩ := kv
      rw [resolveValuesWith.eq_def]
      dsimp only
      refine exNN_bind ?_ fun v => exNN_bind ih fun rest => exNN_ok _
      split
      · exact exNN_bind (hres _) fun r => exNN_ok _
      · simp [exNN]

theorem mergeAllOfWith_nn (res : Jobj → Except PyErr Jobj)
    (hres : ∀ o, exNN (res o)) :
    ∀ (parts : List JVal) (resolved : Jobj),
      exNN (mergeAllOfWith res resolved parts) := by
  intro parts
  induction parts with
  | nil => intro resolved; simp [mergeAllOfWith, exNN]
  | cons part rest ih =>
      intro resolved
      rw [mergeAllOfWith.eq_def]
      dsimp only
      refine exNN_bind ?_ fun rp => exNN_bind (merge_schemas_nn _ _) fun m => ih _
      split
      · exact hres _
      · simp [exNN]

theorem resolvePartsWith_nn (res : Jobj → Except PyErr Jobj)
    (hres : ∀ o, exNN (res o)) :
    ∀ (parts : List JVal) (resolved : Jobj),
      exNN (resolvePartsWith res resolved parts) := by
  intro parts
  induction parts with
  | nil => intro resolved; simp [resolvePartsWith, exNN]
  | cons part rest ih =>
      intro resolved
      rw [resolvePartsWith.eq_def]
      dsimp only
      refine exNN_bind ?_ fun rp => exNN_bind ?_ fun resolved => ih _
      · split
        · exact hres _
        · simp [exNN]
      · split
        · split <;> simp [exNN]
        · exact merge_schemas_nn _ _

theorem resolve_schema_nn : ∀ (fuel : Nat) (schema : Jobj),
    exNN (resolve_schema fuel schema) := by
  intro fuel
  induction fuel with
  | zero => intro schema; simp [resolve_schema, exNN]
  | succ fuel ih =>
      intro schema
      rw [resolve_schema.eq_def]
      dsimp only
      refine exNN_bind (resolveValuesWith_nn _ ih _) fun resolved => ?_
      refine exNN_bind ?_ fun resolved => ?_
      · split
        · split
          · exact mergeAllOfWith_nn _ ih _ _
          · simp [exNN]
        · simp [exNN]
      · refine exNN_bind ?_ fun parts => resolvePartsWith_nn _ ih _ _
        split <;> simp [exNN]

theorem mNN_pure {α : Type} (a : α) : mNN (pure a : M α) := by
  intro g
  simp [exNN, mNN]

theorem mNN_err {α : Type} {e : PyErr} (h : e ≠ .noInvalidationTarget) :
    mNN (M.err e : M α) := by
  intro g
  rw [M.err_apply]
  intro hh
  cases hh
  exact h rfl

theorem mNN_bind {α β : Type} {x : M α} {f : α → M β}
    (hx : mNN x) (hf : ∀ a, mNN (f a)) : mNN (x >>= f) := by
  intro g
  show exNN (M.bind x f g)
  unfold M.bind
  cases hxg : x g with
  | ok p =>
      obtain ⟨a, g₁⟩ := p
      exact hf a g₁
  | error e =>
      intro h
      cases h
      exact hx g hxg

theorem mNN_ofExcept {α : Type} {r : Except PyErr α} (h : exNN r) :
    mNN (M.ofExcept r) := by
  cases r with
  | ok a => exact mNN_pure a
  | error e => exact mNN_err fun he => h (by rw [he])

theorem drawNat_nn : mNN drawNat := by
  intro g
  simp [exNN, drawNat]

theorem drawStr_nn : mNN drawStr := by
  intro g
  simp [exNN, drawStr]

theorem drawName_nn : mNN drawName := by
  intro g
  simp [exNN, drawName]

theorem randint_nn (lo hi : Int) : mNN (randint lo hi) := by
  unfold randint
  split
  · exact mNN_err (by simp)
  · exact mNN_bind drawNat_nn fun k => mNN_pure _

theorem pyChoice_nn {α : Type} : ∀ l : List α, mNN (pyChoice l)
  | [] => mNN_err (by simp)
  | x :: xs => mNN_bind drawNat_nn fun k => mNN_pure _

theorem getKey_nn (d : Jobj) (key : String) : mNN (getKey d key) := by
  unfold getKey
  split
  · exact mNN_pure _
  · exact mNN_err (by simp)

theorem reqNum_nn (v : JVal) : mNN (reqNum v) := by
  unfold reqNum
  split
  · exact mNN_pure _
  · exact mNN_err (by simp)

theorem get_random_int_nn (s : Jobj) : mNN (get_random_int s) := by
  unfold get_random_int
  exact mNN_bind (reqNum_nn _) fun minimum =>
    mNN_bind (reqNum_nn _) fun maximum => randint_nn _ _

theorem get_random_float_nn (s : Jobj) : mNN (get_random_float s) := by
  unfold get_random_float
  refine mNN_bind ?_ fun bounds => ?_
  · split
    · exact mNN_pure _
    · exact mNN_bind (reqNum_nn _) fun b => mNN_pure _
    · exact mNN_bind (reqNum_nn _) fun a => mNN_pure _
    · exact mNN_bind (reqNum_nn _) fun a => mNN_bind (reqNum_nn _) fun b => by
        split
        · exact mNN_err (by simp)
        · exact mNN_pure _
  · dsimp only
    split
    · split
      · exact mNN_err (by simp)
      · split
        · exact mNN_err (by simp)
        · exact mNN_bind drawNat_nn fun k => mNN_pure _
    · exact mNN_bind drawNat_nn fun k => mNN_pure _

theorem fake_string_nn (f : String) : mNN (fake_string f) := drawStr_nn

theorem padToMin_nn (minimum : Nat) : ∀ (fuel : Nat) (v : String),
    mNN (padToMin minimum fuel v) := by
  intro fuel
  induction fuel with
  | zero =>
      intro v
      rw [padToMin]
      split
      · exact mNN_err (by simp)
      · exact mNN_pure _
  | succ fuel ih =>
      intro v
      rw [padToMin]
      split
      · exact mNN_bind drawName_nn fun n => ih _
      · exact mNN_pure _

theorem get_random_string_nn (s : Jobj) : mNN (get_random_string s) := by
  unfold get_random_string
  dsimp only
  split
  · exact mNN_bind drawStr_nn fun v => mNN_pure _
  · refine mNN_bind (reqNum_nn _) fun minimum =>
      mNN_bind (reqNum_nn _) fun maximum => ?_
    dsimp only
    split
    · exact mNN_bind drawStr_nn fun data => mNN_pure _
    · refine mNN_bind ?_ fun fmt => mNN_bind (fake_string_nn _) fun value =>
        mNN_bind (padToMin_nn _ _ _) fun value2 => mNN_pure _
      split
      · exact mNN_pure _
      · exact mNN_err (by simp)

theorem buildArrayWith_nn (gen : Jobj → M JVal) (hgen : ∀ s, mNN (gen s))
    (items : Jobj) : ∀ n, mNN (buildArrayWith gen items n) := by
  intro n
  induction n with
  | zero => exact mNN_pure _
  | succ n ih =>
      exact mNN_bind (hgen _) fun v => mNN_bind ih fun rest => mNN_pure _

theorem get_random_array_with_nn (gen : Jobj → M JVal)
    (hgen : ∀ s, mNN (gen s)) (s : Jobj) : mNN (get_random_array_with gen s) := by
  unfold get_random_array_with
  refine mNN_bind (reqNum_nn _) fun minimum =>
    mNN_bind (reqNum_nn _) fun maximum =>
    mNN_bind (getKey_nn _ _) fun items => ?_
  split
  · exact mNN_bind (buildArrayWith_nn gen hgen _ _) fun l => mNN_pure _
  · exact mNN_err (by simp)

theorem get_valid_value_nn : ∀ (fuel : Nat) (s : Jobj),
    mNN (get_valid_value fuel s) := by
  intro fuel
  induction fuel with
  | zero => intro s; exact mNN_err (by simp)
  | succ fuel ih =>
      intro s
      rw [get_valid_value.eq_def]
      dsimp only
      split
      · split
        · exact pyChoice_nn _
        · exact mNN_bind (pyChoice_nn _) fun c => mNN_pure _
        · exact mNN_err (by simp)
      · refine mNN_bind (getKey_nn _ _) fun vt => ?_
        split
        · exact mNN_bind drawNat_nn fun k => mNN_pure _
        · split
          · exact mNN_bind (get_random_int_nn _) fun n => mNN_pure _
          · split
            · exact mNN_bind (get_random_float_nn _) fun n => mNN_pure _
            · split
              · exact get_random_string_nn _
              · split
                · exact get_random_array_with_nn _ ih _
                · exact mNN_err (by simp)

theorem padListLoop_nn : ∀ (gap : Nat) (l : List JVal), mNN (padListLoop gap l) := by
  intro gap
  induction gap with
  | zero => intro l; exact mNN_pure _
  | succ gap ih => intro l; exact mNN_bind (pyChoice_nn _) fun c => ih _

theorem padStrLoop_nn : ∀ (gap : Nat) (v : String), mNN (padStrLoop gap v) := by
  intro gap
  induction gap with
  | zero => intro v; exact mNN_pure _
  | succ gap ih => intro v; exact mNN_bind (pyChoice_nn _) fun c => ih _

theorem get_value_out_of_bounds_nn (s : Jobj) (cur : JVal) :
    mNN (get_value_out_of_bounds s cur) := by
  unfold get_value_out_of_bounds
  refine mNN_bind (getKey_nn _ _) fun vt => ?_
  dsimp only
  split
  · split
    · exact mNN_bind (reqNum_nn _) fun n => mNN_pure _
    · split
      · exact mNN_bind (reqNum_nn _) fun n => mNN_pure _
      · split
        · exact mNN_pure _
        · split
          · exact mNN_pure _
          · exact mNN_pure _
  · split
    · refine mNN_bind (reqNum_nn _) fun minItems => ?_
      split
      · split
        · exact mNN_pure _
        · exact mNN_pure _
        · exact mNN_err (by simp)
      · split
        · refine mNN_bind (reqNum_nn _) fun maxN => ?_
          split
          · split
            · exact mNN_bind (padListLoop_nn _ _) fun padded => mNN_pure _
            · exact mNN_err (by simp)
          · exact mNN_bind (padListLoop_nn _ _) fun padded => mNN_pure _
        · exact mNN_pure _
    · split
      · split
        · refine mNN_bind (reqNum_nn _) fun n => ?_
          split
          · exact mNN_pure _
          · exact mNN_pure _
          · exact mNN_err (by simp)
        · split
          · refine mNN_bind (reqNum_nn _) fun maxN => mNN_bind ?_ fun start =>
              mNN_bind (padStrLoop_nn _ _) fun padded => mNN_pure _
            split
            · exact mNN_pure _
            · exact mNN_err (by simp)
          · exact mNN_pure _
      · exact mNN_pure _

theorem get_invalid_value_nn (fuel : Nat) (s : Jobj) (cur : JVal)
    (vfc : List JVal) : mNN (get_invalid_value fuel s cur vfc) := by
  unfold get_invalid_value
  refine mNN_bind (getKey_nn _ _) fun vt => ?_
  dsimp only
  split
  · refine mNN_bind
      (mNN_ofExcept (get_invalid_value_from_constraint_nn _ _ _)) fun fc => ?_
    split
    · exact mNN_pure _
    · split
      · split
        · refine mNN_bind (mNN_ofExcept (get_invalid_value_from_enum_nn _ _)) fun fe => ?_
          split
          · exact mNN_pure _
          · refine mNN_bind (get_value_out_of_bounds_nn _ _) fun oob => ?_
            split
            · exact mNN_pure _
            · split
              · exact mNN_pure _
              · exact mNN_bind drawStr_nn fun u => mNN_pure _
        · refine mNN_bind (mNN_err (by simp)) fun fe => ?_
          split
          · exact mNN_pure _
          · refine mNN_bind (get_value_out_of_bounds_nn _ _) fun oob => ?_
            split
            · exact mNN_pure _
            · split
              · exact mNN_pure _
              · exact mNN_bind drawStr_nn fun u => mNN_pure _
      · refine mNN_bind (mNN_pure _) fun fe => ?_
        split
        · exact mNN_pure _
        · refine mNN_bind (get_value_out_of_bounds_nn _ _) fun oob => ?_
          split
          · exact mNN_pure _
          · split
            · exact mNN_pure _
            · exact mNN_bind drawStr_nn fun u => mNN_pure _
  · refine mNN_bind (mNN_pure _) fun fc => ?_
    split
    · exact mNN_pure _
    · split
      · split
        · refine mNN_bind (mNN_ofExcept (get_invalid_value_from_enum_nn _ _)) fun fe => ?_
          split
          · exact mNN_pure _
          · refine mNN_bind (get_value_out_of_bounds_nn _ _) fun oob => ?_
            split
            · exact mNN_pure _
            · split
              · exact mNN_pure _
              · exact mNN_bind drawStr_nn fun u => mNN_pure _
        · refine mNN_bind (mNN_err (by simp)) fun fe => ?_
          split
          · exact mNN_pure _
          · refine mNN_bind (get_value_out_of_bounds_nn _ _) fun oob => ?_
            split
            · exact mNN_pure _
            · split
              · exact mNN_pure _
              · exact mNN_bind drawStr_nn fun u => mNN_pure _
      · refine mNN_bind (mNN_pure _) fun fe => ?_
        split
        · exact mNN_pure _
        · refine mNN_bind (get_value_out_of_bounds_nn _ _) fun oob => ?_
          split
          · exact mNN_pure _
          · split
            · exact mNN_pure _
            · exact mNN_bind drawStr_nn fun u => mNN_pure _

theorem pyShuffleAux_nn {α : Type} : ∀ (n : Nat) (l : List α),
    mNN (pyShuffleAux n l) := by
  intro n
  induction n with
  | zero => intro l; exact mNN_pure _
  | succ n ih =>
      intro l
      cases l with
      | nil => exact mNN_pure _
      | cons x xs =>
          exact mNN_bind drawNat_nn fun k =>
            mNN_bind (ih _) fun rest => mNN_pure _

theorem pyShuffle_nn {α : Type} (l : List α) : mNN (pyShuffle l) :=
  pyShuffleAux_nn _ _

theorem invalidateProperty_nn (fuel : Nat) (dto : DtoModel)
    (properties schema : Jobj) (relations : List Relation) (status_code : Int)
    (name : String) :
    mNN (invalidateProperty fuel dto properties schema relations status_code
      name) := by
  have htail : ∀ vs1 : Jobj, mNN (show M (Jobj × Jobj) from do
      let current_value ← (match dget properties name with
        | some v => M.pure v
        | none => do
            let property_type ← getKey vs1 "type"
            if isStr property_type "object" then pure (.obj [])
            else if isStr property_type "array" then pure (.arr [])
            else get_valid_value fuel vs1 : M JVal)
      let values_from_constraint ← M.ofExcept (constraintHeads relations name)
      let r ← get_invalid_value fuel vs1 current_value values_from_constraint
      let dtoAfter := if dmem properties name then dset dto.props name r.2
        else dto.props
      pure (dset properties name r.1, dtoAfter)) := by
    intro vs1
    refine mNN_bind ?_ fun cur => ?_
    · split
      · exact mNN_pure _
      · refine mNN_bind (getKey_nn _ _) fun pt => ?_
        split
        · exact mNN_pure _
        · split
          · exact mNN_pure _
          · exact get_valid_value_nn _ _
    · exact mNN_bind (mNN_ofExcept (constraintHeads_nn _ _)) fun vfc =>
        mNN_bind (get_invalid_value_nn _ _ _ _) fun r => mNN_pure _
  unfold invalidateProperty
  dsimp only
  split
  · exact mNN_bind (getKey_nn _ _) fun pv =>
      mNN_bind drawStr_nn fun iv => mNN_pure _
  · split
    · exact mNN_pure _
    · refine mNN_bind (getKey_nn _ _) fun props_schema => ?_
      refine mNN_bind ?_ fun vs0 => ?_
      · split
        · split
          · exact mNN_pure _
          · exact mNN_err (by simp)
        · exact mNN_err (by simp)
      · refine mNN_bind ?_ fun vs1 => ?_
        · split
          · exact mNN_ofExcept (resolve_schema_nn _ _)
          · exact mNN_err (by simp)
        · dsimp only
          split
          · split
            · split
              · exact mNN_bind (mNN_ofExcept (filterNullType_nn _)) fun vss2 =>
                  mNN_bind (pyChoice_nn _) fun chosen => by
                    split
                    · exact mNN_bind (mNN_pure _) fun y => htail _
                    · exact mNN_bind (mNN_err (by simp)) fun y => htail _
              · exact mNN_bind (mNN_pure _) fun vss2 =>
                  mNN_bind (pyChoice_nn _) fun chosen => by
                    split
                    · exact mNN_bind (mNN_pure _) fun y => htail _
                    · exact mNN_bind (mNN_err (by simp)) fun y => htail _
            · exact mNN_bind (mNN_err (by simp)) fun y => htail _
          · exact mNN_bind (mNN_pure _) fun y => htail _

theorem M.bind_eq {α β : Type} (x : M α) (f : α → M β) (g : RandState)
    (a : α) (g₁ : RandState) (hx : x g = .ok (a, g₁)) :
    (x >>= f) g = f a g₁ := by
  show M.bind x f g = _
  unfold M.bind
  rw [hx]

/-- C9: get_invalidated_data fails with the no-invalidation-target error
(the ValueError raised at dto_base.py line 216, the spec's
NoInvalidationTargetError) exactly when the candidate property-name set --
the property names of the non-PathPropertiesConstraint relations for the
status code, unioned with the resolved schema's declared properties when
the status code is the default invalid-property code -- is empty: it
raises rather than returning the data unchanged, and no other part of the
pipeline can raise that error. -/
theorem C9_no_invalidation_target (fuel : Nat) (dto : DtoModel)
    (schema rschema : Jobj) (status_code invalid_property_default_code : Int)
    (names : List String) (g : RandState)
    (hres : resolve_schema fuel schema = .ok rschema)
    (hnames : candidateNames rschema
      ((get_relations_for_error_code dto.relations status_code).filter
        fun r => !r.isPathProps) status_code invalid_property_default_code
      = .ok names) :
    get_invalidated_data fuel dto schema status_code
        invalid_property_default_code g = .error .noInvalidationTarget
      ↔ names = [] := by
  unfold get_invalidated_data
  dsimp only
  rw [M.bind_eq _ _ _ _ _ (show (M.ofExcept (resolve_schema fuel schema) :
    M Jobj) g = .ok (rschema, g) from by rw [hres]; rfl)]
  rw [M.bind_eq _ _ _ _ _ (show (M.ofExcept (candidateNames rschema
      ((get_relations_for_error_code dto.relations status_code).filter
        fun r => !r.isPathProps) status_code invalid_property_default_code) :
    M (List String)) g = .ok (names, g) from by rw [hnames]; rfl)]
  constructor
  · intro h
    by_contra hne
    rw [if_neg hne] at h
    refine (mNN_bind (pyShuffle_nn names) fun shuffled => ?_) g h
    cases shuffled with
    | nil => exact mNN_pure _
    | cons name rest =>
        exact invalidateProperty_nn fuel dto dto.as_dict rschema
          ((get_relations_for_error_code dto.relations status_code).filter
            fun r => !r.isPathProps) status_code name
  · intro hnil
    subst hnil
    rw [if_pos rfl]
    rfl

/-- C9, witnessed: a dto with no relations and a schema declaring no
properties yields an empty candidate set, and the call raises the
no-invalidation-target error. -/
theorem C9_no_invalidation_target_witness :
    get_invalidated_data 2 ⟨[], []⟩ [("properties", .obj [])] 422 422 ⟨[], []⟩
      = .error .noInvalidationTarget :=
  (C9_no_invalidation_target 2 ⟨[], []⟩ [("properties", .obj [])]
    [("properties", .obj [])] 422 422 [] ⟨[], []⟩ rfl rfl).mpr rfl

end OpenApiLibCore
